import Mathlib

/-!
Shallow embedding of the parallel file-storage system implemented in `run.py`
(single-node chunked object store: ingest / retrieve / delete pipelines over a
file registry, a part registry, an on-disk artifact store, and a memory
admission controller).

Modelling conventions, stated once:

* Byte strings are `List Nat`.
* The two registries are Python dicts keyed by the integer ids and iterated in
  insertion order; they are modelled as insertion-ordered lists of records
  (insert replaces in place when the key is present, otherwise appends;
  `del` filters the key out).  States whose id sets are duplicated are not
  representable by a Python dict, so dict-shaped hypotheses (`Nodup` of the
  ids) appear where a theorem needs them.
* Chunk artifacts live at paths `part_<file_id>_<seq>.dat`; that naming is an
  injective function of the pair `(file_id, seq)`, so the disk is modelled as
  a map keyed by `Nat × Nat`.  Retrieved outputs live in a separate directory
  keyed by the file name.
* `zlib` and `hashlib.md5` are external libraries: they are a `Codec`
  parameter (compression, fallible decompression, digest).  Nothing about
  them is assumed except where a theorem explicitly hypothesises zlib's
  round-trip contract.
* The memory counter is a Python int: modelled as `Int`, with
  `max 0 (cur - n)` for the clamped decrement, exactly as in the source.
* Concurrency: each handler is embedded as a sequential function of state.
  The only cross-thread interaction the pipelines have is
  `memory_condition.wait()`: a wait returns after some other thread ran
  `reduce_memory_usage`.  A wait is therefore modelled as consuming one entry
  `e` from an oracle list `waits` and performing the concurrent release
  `current := max 0 (current - e)`; an exhausted oracle means the thread
  blocks forever, in which case the handler returns `none`.
* Prints are accumulated as structured messages (`Msg`) prepended to
  `Sys.out`; a Python exception escaping a handler is `Except.error`.
* Loops whose termination depends on runtime configuration (they really do
  not terminate when `pool = 0`) take a fuel argument that provably
  dominates the iteration count whenever the Python loop terminates;
  exhausted fuel yields `none` (the loop did not finish).
-/

/-- Lifecycle status strings 'processing' / 'ready' / 'not_ready'. -/
inductive Status where
  | processing
  | ready
  | notReady
deriving DecidableEq, Repr

/-- A record of the File Registry (`class File` in `run.py`). -/
structure FileRec where
  file_id : Nat
  file_name : String
  number_of_parts : Nat
  status : Status
deriving DecidableEq, Repr

/-- A record of the Part Registry (`class FilePart` in `run.py`). -/
structure FilePartRec where
  part_id : Nat
  file_id : Nat
  sequence_number : Nat
  md5_hash : Option Nat
  status : Status
deriving DecidableEq, Repr

/-- The messages the handlers print, as structured values. -/
inductive Msg where
  | fileNotFound (path : String)
  | yourFileId (fid : Nat)
  | memWait
  | getNoExist (fid : Int)
  | getNotAvailable (fid : Int)
  | corrupted
  | retrievedOk (name : String)
  | assembleError
  | delNoFile (fid : Int)
  | delPartError (pid : Nat)
  | delDeleted (fid : Int)
  | delIncomplete (fid : Int)
  | listEmpty
  | listHeader
  | listEntry (fid : Nat) (name : String) (status : Status)
  | badArgs
  | unknownCommand
deriving DecidableEq, Repr

/-- Error report of `decompress_and_verify_part` (the caller only tests
truthiness, but the source distinguishes the two messages). -/
inductive PartErr where
  | ioOrDecode (path : Nat × Nat)
  | mismatch (path : Nat × Nat)
deriving DecidableEq, Repr

/-- A Python exception escaping a handler. -/
inductive PyExc where
  | valueError
  | indexError
deriving DecidableEq, Repr

/-- The mutable global state of `run.py`. -/
structure Sys where
  current : Int
  files : List FileRec
  parts : List FilePartRec
  disk : Nat × Nat → Option (List Nat)
  retrieved : String → Option (List Nat)
  nextFileId : Nat
  nextPartId : Nat
  out : List Msg

/-- Configuration read from `config.yaml`: `CHUNK_SIZE`,
`NUMBER_OF_IO_PROCESSES` (worker-pool size) and `MAX_MEMORY_USAGE`. -/
structure Config where
  chunk : Nat
  pool : Nat
  maxMem : Int

/-- The external compression/digest libraries (`zlib`, `hashlib.md5`):
compression, fallible decompression and digest over raw bytes. -/
structure Codec where
  compress : List Nat → List Nat
  decomp : List Nat → Option (List Nat)
  md5 : List Nat → Nat

/-- Fresh process state: zero memory in flight, empty registries and disk. -/
def initSys : Sys :=
  { current := 0, files := [], parts := [], disk := fun _ => none,
    retrieved := fun _ => none, nextFileId := 0, nextPartId := 0, out := [] }

/-- Pointwise update of the artifact store. -/
def updDisk (f : Nat × Nat → Option (List Nat)) (k : Nat × Nat)
    (v : Option (List Nat)) : Nat × Nat → Option (List Nat) :=
  fun q => if q = k then v else f q

/-- Pointwise update of the retrieved-file store. -/
def updRet (f : String → Option (List Nat)) (k : String)
    (v : Option (List Nat)) : String → Option (List Nat) :=
  fun q => if q = k then v else f q

/-- Python-dict insertion into the File Registry: replace in place if the key
exists, else append. -/
def insertFile (f : FileRec) (l : List FileRec) : List FileRec :=
  if l.any (fun g => g.file_id == f.file_id) then
    l.map (fun g => if g.file_id == f.file_id then f else g)
  else l ++ [f]

/-- Python-dict insertion into the Part Registry. -/
def insertPart (p : FilePartRec) (l : List FilePartRec) : List FilePartRec :=
  if l.any (fun q => q.part_id == p.part_id) then
    l.map (fun q => if q.part_id == p.part_id then p else q)
  else l ++ [p]

/-- `check_and_update_memory_usage` (run.py lines 61-67): refuse if
`current + size > MAX_MEMORY_USAGE`, otherwise add `size` and accept. -/
def check_and_update_memory_usage (C : Config) (size : Nat) (s : Sys) :
    Bool × Sys :=
  if s.current + (size : Int) > C.maxMem then (false, s)
  else (true, { s with current := s.current + (size : Int) })

/-- `reduce_memory_usage` (run.py lines 70-74): decrement clamped at zero
(`max(0, current - size)`), then `notify_all` (a no-op on the state). -/
def reduce_memory_usage (size : Nat) (s : Sys) : Sys :=
  { s with current := max 0 (s.current - (size : Nat)) }

/-- A return from `memory_condition.wait()`: some other thread ran
`reduce_memory_usage e` in the meantime (the oracle entry), and this thread
was notified. -/
def waitFree (e : Nat) (s : Sys) : Sys :=
  { s with current := max 0 (s.current - (e : Nat)) }

/-- `compress_and_store_part` (run.py lines 77-89): hash the raw chunk, write
the compressed chunk at its artifact path, return `(part_id, md5)`. -/
def compress_and_store_part (K : Codec) (chunk : List Nat) (pid : Nat)
    (path : Nat × Nat) (disk : Nat × Nat → Option (List Nat)) :
    (Nat × Nat) × (Nat × Nat → Option (List Nat)) :=
  ((pid, K.md5 chunk), updDisk disk path (some (K.compress chunk)))

/-- `decompress_and_verify_part` (run.py lines 92-106): read the artifact,
decompress, recompute md5 over decompressed bytes; an unreadable artifact or
failing decompression is the caught-exception error, a digest disagreement is
the mismatch error, else the raw bytes with no error. -/
def decompress_and_verify_part (K : Codec)
    (disk : Nat × Nat → Option (List Nat)) (path : Nat × Nat)
    (expected : Option Nat) : Option (List Nat) × Option PartErr :=
  match disk path with
  | none => (none, some (.ioOrDecode path))
  | some comp =>
    match K.decomp comp with
    | none => (none, some (.ioOrDecode path))
    | some d =>
      if expected = some (K.md5 d) then (some d, none)
      else (none, some (.mismatch path))

/-- The per-iteration read phase of `handle_put`'s while loop (run.py lines
128-141): read up to `n` chunks of `CHUNK_SIZE` bytes, registering a
`processing` `FilePart` per chunk as it is read, accumulating the batch
entries `(chunk_data, part_id, seq)` (the artifact path is `(fid, seq)`).
Returns the batch, the next sequence number, the unread remainder of the
source, the `file_end` flag (an empty read happened) and the updated state. -/
def readBatch (C : Config) (fid : Nat) :
    Nat → Nat → List Nat → Sys →
    (List (List Nat × Nat × Nat) × Nat × List Nat × Bool × Sys)
  | 0, seq, rem, s => ([], seq, rem, false, s)
  | n + 1, seq, rem, s =>
    let c := rem.take C.chunk
    if c.isEmpty then ([], seq, rem, true, s)
    else
      let part : FilePartRec :=
        { part_id := s.nextPartId, file_id := fid, sequence_number := seq,
          md5_hash := none, status := .processing }
      let s1 : Sys :=
        { s with parts := insertPart part s.parts,
                 nextPartId := s.nextPartId + 1 }
      let r := readBatch C fid n (seq + 1) (rem.drop C.chunk) s1
      ((c, part.part_id, seq) :: r.1, r.2)

/-- The worker-pool dispatch `io_pool.starmap(compress_and_store_part, batch)`
(run.py line 148): every task writes its artifact; results come back in
submission order. -/
def storeBatch (K : Codec) (fid : Nat) :
    List (List Nat × Nat × Nat) → (Nat × Nat → Option (List Nat)) →
    (List (Nat × Nat) × (Nat × Nat → Option (List Nat)))
  | [], d => ([], d)
  | (c, pid, seq) :: bs, d =>
    let r := compress_and_store_part K c pid (fid, seq) d
    let rest := storeBatch K fid bs r.2
    (r.1 :: rest.1, rest.2)

/-- Result application of `handle_put` (run.py lines 150-152): for each
`(part_id, md5_hash)` set the part's digest and mark it `ready`. -/
def applyResults : List (Nat × Nat) → List FilePartRec → List FilePartRec
  | [], ps => ps
  | (pid, h) :: rs, ps =>
    applyResults rs
      (ps.map (fun q =>
        if q.part_id == pid then
          { q with md5_hash := some h, status := .ready }
        else q))

/-- Finalisation of `handle_put` (run.py lines 156-159): mark the File
`ready`, set `number_of_parts := part_sequence_number + 1` (the source's
formula, preserved verbatim), print the file id. -/
def putFinal (fid seqFinal : Nat) (s : Sys) : Sys :=
  { s with
      files := s.files.map (fun f =>
        if f.file_id == fid then
          { f with status := .ready, number_of_parts := seqFinal + 1 }
        else f),
      out := .yourFileId fid :: s.out }

/-- The while loop of `handle_put` (run.py lines 127-154).  One iteration:
read a batch; try to admit `len(batch) * CHUNK_SIZE` bytes; on refusal print,
wait (consuming a `waits` oracle entry; `none` if the oracle is exhausted,
i.e. the thread blocks forever) and `continue` — which re-tests `file_end`
and otherwise starts a fresh batch from the *remaining* source (the refused
batch is dropped, exactly as the source does); on admission dispatch the
batch, apply results, release the memory.  When `file_end` is reached the
File is finalised.  Fuel dominates the iteration count whenever the Python
loop terminates. -/
def putLoop (C : Config) (K : Codec) (fid : Nat) :
    Nat → List Nat → Nat → List Nat → Sys → Option Sys
  | 0, _, _, _, _ => none
  | fuel + 1, waits, seq, rem, s =>
    let r := readBatch C fid C.pool seq rem s
    let batch := r.1
    let seq' := r.2.1
    let rest := r.2.2.1
    let fileEnd := r.2.2.2.1
    let s0 := r.2.2.2.2
    let needed := batch.length * C.chunk
    match check_and_update_memory_usage C needed s0 with
    | (false, s1) =>
      match waits with
      | [] => none
      | e :: ws =>
        let s2 := waitFree e { s1 with out := .memWait :: s1.out }
        if fileEnd then some (putFinal fid seq' s2)
        else putLoop C K fid fuel ws seq' rest s2
    | (true, s1) =>
      let rr := storeBatch K fid batch s1.disk
      let s2 := { s1 with disk := rr.2, parts := applyResults rr.1 s1.parts }
      let s3 := reduce_memory_usage needed s2
      if fileEnd then some (putFinal fid seq' s3)
      else putLoop C K fid fuel waits seq' rest s3

/-- `handle_put` (run.py lines 109-164).  `src` is the external filesystem
(`none` = the source path does not exist; the missing-source check happens
before any File is created).  The file name is the source path (base-name
extraction is string glue, not modelled).  Returns `none` when the pipeline
blocks forever on the wait condition. -/
def handle_put (C : Config) (K : Codec) (waits : List Nat) (path : String)
    (src : String → Option (List Nat)) (s : Sys) : Option Sys :=
  match src path with
  | none => some { s with out := .fileNotFound path :: s.out }
  | some content =>
    let f : FileRec :=
      { file_id := s.nextFileId, file_name := path, number_of_parts := 0,
        status := .processing }
    let s1 : Sys :=
      { s with nextFileId := s.nextFileId + 1,
               files := insertFile f s.files }
    putLoop C K f.file_id (content.length + 2) waits 0 content s1

/-- Registry lookup `file_id in file_registry` / `file_registry[file_id]`
for the int-typed command argument. -/
def findFile (s : Sys) (fid : Int) : Option FileRec :=
  s.files.find? (fun f => (f.file_id : Int) == fid)

/-- `file_parts.sort(key=lambda part: part.sequence_number)` (run.py line
186): Python's sort is a stable ascending sort by the key, so any stable
sort models it exactly; insertion sort is stable. -/
def sortParts (l : List FilePartRec) : List FilePartRec :=
  List.insertionSort (fun a b => a.sequence_number ≤ b.sequence_number) l

/-- The admission sweep over one retrieval batch (run.py lines 197-206): for
each part try to admit `CHUNK_SIZE` bytes; on refusal print, wait (oracle),
and `continue` — which moves on to the *next* part, so the refused part is
dropped from the dispatch, exactly as the source does.  Accumulates the
admitted byte count and the `(artifact_path, expected_md5)` task list;
`none` when a wait blocks forever. -/
def admitBatch (C : Config) (fid : Int) :
    List FilePartRec → List Nat → Sys →
    Option (Nat × List ((Nat × Nat) × Option Nat) × List Nat × Sys)
  | [], ws, s => some (0, [], ws, s)
  | p :: ps, ws, s =>
    match check_and_update_memory_usage C C.chunk s with
    | (true, s1) =>
      match admitBatch C fid ps ws s1 with
      | none => none
      | some (m, ts, ws2, s2) =>
        some (m + C.chunk, ((fid.toNat, p.sequence_number), p.md5_hash) :: ts,
              ws2, s2)
    | (false, s1) =>
      match ws with
      | [] => none
      | e :: ws2 =>
        admitBatch C fid ps ws2 (waitFree e { s1 with out := .memWait :: s1.out })

/-- `io_pool.starmap(decompress_and_verify_part, tasks)` (run.py line 208). -/
def runTasks (K : Codec) (disk : Nat × Nat → Option (List Nat))
    (ts : List ((Nat × Nat) × Option Nat)) :
    List (Option (List Nat) × Option PartErr) :=
  ts.map (fun t => decompress_and_verify_part K disk t.1 t.2)

/-- The result loop of `handle_get` (run.py lines 211-217): in submission
order, on the first error print the corruption report, delete the partially
written destination and stop (`false` = aborted); otherwise append the
decompressed bytes to the destination. -/
def writeResults (name : String) :
    List (Option (List Nat) × Option PartErr) → Sys → Bool × Sys
  | [], s => (true, s)
  | (d, err) :: rs, s =>
    match err with
    | some _ =>
      (false, { s with retrieved := updRet s.retrieved name none,
                       out := .corrupted :: s.out })
    | none =>
      let w := (s.retrieved name).getD [] ++ d.getD []
      writeResults name rs { s with retrieved := updRet s.retrieved name (some w) }

/-- The batch loop of `handle_get` (run.py lines 193-217): process the sorted
parts in slices of `NUMBER_OF_IO_PROCESSES`; per batch run the admission
sweep, dispatch the admitted tasks, release the admitted memory, then write
the results in order (aborting on corruption).  On completion print the
success message.  Fuel dominates the batch count whenever the Python loop
terminates. -/
def getLoop (C : Config) (K : Codec) (name : String) (fid : Int) :
    Nat → List Nat → List FilePartRec → Sys → Option Sys
  | 0, _, _, _ => none
  | fuel + 1, ws, parts, s =>
    match parts with
    | [] => some { s with out := .retrievedOk name :: s.out }
    | _ :: _ =>
      let batch := parts.take C.pool
      let rest := parts.drop C.pool
      match admitBatch C fid batch ws s with
      | none => none
      | some (m, ts, ws2, s1) =>
        let results := runTasks K s1.disk ts
        let s2 := reduce_memory_usage m s1
        match writeResults name results s2 with
        | (false, s3) => some s3
        | (true, s3) => getLoop C K name fid fuel ws2 rest s3

/-- `handle_get` (run.py lines 167-222) for an already-parsed int id: missing
file and not-ready guards (no state change beyond the report), then open the
destination (creating it empty), then the batch loop.  `NUMBER_OF_IO_PROCESSES
= 0` makes `range(0, n, 0)` raise `ValueError`, caught at line 221 after the
destination was already created empty. -/
def handle_get (C : Config) (K : Codec) (waits : List Nat) (fid : Int)
    (s : Sys) : Option Sys :=
  match findFile s fid with
  | none => some { s with out := .getNoExist fid :: s.out }
  | some f =>
    if f.status ≠ Status.ready then
      some { s with out := .getNotAvailable fid :: s.out }
    else
      let fps := sortParts (s.parts.filter (fun p => (p.file_id : Int) == fid))
      let s1 := { s with retrieved := updRet s.retrieved f.file_name (some []) }
      if C.pool = 0 then some { s1 with out := .assembleError :: s1.out }
      else getLoop C K f.file_name fid (fps.length + 1) waits fps s1

/-- `delete_file_part` (run.py lines 225-232): remove the artifact if it
exists (an already-absent artifact is success); a raised filesystem error
(the `faults` oracle) is returned per part, leaving the artifact in place. -/
def delete_file_part (faults : Nat × Nat → Bool)
    (disk : Nat × Nat → Option (List Nat)) (path : Nat × Nat) (pid : Nat) :
    (Nat × Bool) × (Nat × Nat → Option (List Nat)) :=
  if (disk path).isSome then
    if faults path then ((pid, true), disk)
    else ((pid, false), updDisk disk path none)
  else ((pid, false), disk)

/-- `io_pool.starmap(delete_file_part, tasks)` (run.py line 255). -/
def runDeletes (faults : Nat × Nat → Bool) :
    List ((Nat × Nat) × Nat) → (Nat × Nat → Option (List Nat)) →
    (List (Nat × Bool) × (Nat × Nat → Option (List Nat)))
  | [], d => ([], d)
  | (path, pid) :: ts, d =>
    let r := delete_file_part faults d path pid
    let rest := runDeletes faults ts r.2
    (r.1 :: rest.1, rest.2)

/-- The result loop of `handle_delete` (run.py lines 257-262): report each
failed part, remove each successfully deleted part from the Part Registry. -/
def applyDeleteResults : List (Nat × Bool) → Sys → Sys
  | [], s => s
  | (pid, err) :: rs, s =>
    if err then
      applyDeleteResults rs { s with out := .delPartError pid :: s.out }
    else
      applyDeleteResults rs
        { s with parts := s.parts.filter (fun q => q.part_id != pid) }

/-- `handle_delete` (run.py lines 235-269): missing-file guard; mark the File
and all its Parts `not_ready`; dispatch one artifact deletion per part;
remove successfully deleted Parts from the registry; remove the File only if
every deletion succeeded, otherwise report incomplete deletion. -/
def handle_delete (faults : Nat × Nat → Bool) (fid : Int)
    (s : Sys) : Sys :=
  match findFile s fid with
  | none => { s with out := .delNoFile fid :: s.out }
  | some _ =>
    let fl := s.files.map (fun f =>
      if (f.file_id : Int) == fid then { f with status := .notReady } else f)
    let s1 := { s with files := fl }
    let fps := s1.parts.filter (fun p => (p.file_id : Int) == fid)
    let pl := s1.parts.map (fun p =>
      if (p.file_id : Int) == fid then { p with status := .notReady } else p)
    let s2 := { s1 with parts := pl }
    let tasks := fps.map (fun p => ((fid.toNat, p.sequence_number), p.part_id))
    let rr := runDeletes faults tasks s2.disk
    let s3 := applyDeleteResults rr.1 { s2 with disk := rr.2 }
    if rr.1.all (fun r => !r.2) then
      { s3 with files := s3.files.filter (fun f => !((f.file_id : Int) == fid)),
                out := .delDeleted fid :: s3.out }
    else { s3 with out := .delIncomplete fid :: s3.out }

/-- `handle_list` (run.py lines 272-279). -/
def handle_list (s : Sys) : Sys :=
  if s.files.isEmpty then { s with out := .listEmpty :: s.out }
  else
    { s with out :=
        (s.files.map (fun f => Msg.listEntry f.file_id f.file_name f.status)).reverse
          ++ Msg.listHeader :: s.out }

/-- Whitespace for Python `str.split()` with no separator. -/
def isSpaceChar (c : Char) : Bool :=
  c = ' ' || c = '\t' || c = '\n' || c = '\r'

/-- Worker for `pySplit`: accumulate the current word (reversed), emitting it
at each whitespace run; empty words are never produced. -/
def wordsAux : List Char → List Char → List (List Char)
  | [], acc => if acc.isEmpty then [] else [acc.reverse]
  | c :: cs, acc =>
    if isSpaceChar c then
      if acc.isEmpty then wordsAux cs [] else acc.reverse :: wordsAux cs []
    else wordsAux cs (c :: acc)

/-- Python `cmd.split()`: split on whitespace runs, dropping empty words. -/
def pySplit (cmd : String) : List String :=
  (wordsAux cmd.data []).map (fun w => String.mk w)

/-- Decimal digit value of a character, if it is one. -/
def pyDigit (c : Char) : Option Nat :=
  if '0' ≤ c ∧ c ≤ '9' then some (c.toNat - '0'.toNat) else none

/-- All-digit parse of a non-empty character list. -/
def pyNatAux : Nat → List Char → Option Nat
  | _, [] => none
  | acc, [c] => (pyDigit c).map (fun d => acc * 10 + d)
  | acc, c :: cs =>
    match pyDigit c with
    | none => none
    | some d => pyNatAux (acc * 10 + d) cs

/-- Python `int(word)` on a whitespace-free word: an optional sign followed
by at least one digit, else `ValueError` (`none`).  (Exotic accepted forms
such as a leading `+` or digit-group underscores are not modelled; no
theorem's input uses them.) -/
def pyInt (a : String) : Option Int :=
  match a.data with
  | '-' :: rest => (pyNatAux 0 rest).map (fun n => -(n : Int))
  | l => (pyNatAux 0 l).map (fun n => (n : Int))

/-- `handle_command` (run.py lines 282-297), the command dispatched to a
worker thread.  `int(words[1])` on a non-numeric id raises `ValueError`
(`pyInt` = `none`); an empty command raises `IndexError` at
`words[0]`.  `Except.error` is the uncaught Python exception, `Except.ok
none` a handler blocked forever on the wait condition. -/
def handle_command (C : Config) (K : Codec) (faults : Nat × Nat → Bool)
    (waits : List Nat) (src : String → Option (List Nat)) (cmd : String)
    (s : Sys) : Except PyExc (Option Sys) :=
  match pySplit cmd with
  | [] => .error .indexError
  | [w] =>
    if w = "list" then .ok (some (handle_list s))
    else .ok (some { s with out := .badArgs :: s.out })
  | w :: a :: _ =>
    if w = "list" then .ok (some (handle_list s))
    else if w = "put" then .ok (handle_put C K waits a src s)
    else if w = "get" then
      match pyInt a with
      | none => .error .valueError
      | some fid => .ok (handle_get C K waits fid s)
    else if w = "delete" then
      match pyInt a with
      | none => .error .valueError
      | some fid => .ok (some (handle_delete faults fid s))
    else .ok (some { s with out := .unknownCommand :: s.out })

/-- One abstract operation against the Memory Admission Controller. -/
inductive MemOp where
  | admitOp (n : Nat)
  | releaseOp (n : Nat)

/-- Run a sequence of controller operations against the state (the return
value of a refused admission is discarded, as a caller that goes to wait
does). -/
def runOps (C : Config) : List MemOp → Sys → Sys
  | [], s => s
  | .admitOp n :: ops, s =>
    runOps C ops (check_and_update_memory_usage C n s).2
  | .releaseOp n :: ops, s => runOps C ops (reduce_memory_usage n s)

/-- A concrete codec instance for evaluating the model: identity compression
(with total decompression) and a sum digest.  Any `Codec` value is a valid
instantiation of the external libraries. -/
def idCodec : Codec :=
  { compress := id, decomp := some, md5 := fun b => b.foldr (fun a acc => a + acc) 0 }

/-- A reachable mid-load state for the retrieval counterexample: file `0`
(name "f") is `ready` with two parts (artifacts `[1,1,1,1]` and `[2,2]`
stored under the identity codec, digests consistent), while a concurrent
operation currently holds all 8 admitted bytes (`current = 8`,
`MAX_MEMORY_USAGE = 8`). -/
def busyGetSys : Sys :=
  { current := 8,
    files := [⟨0, "f", 3, .ready⟩],
    parts := [⟨0, 0, 0, some 4, .ready⟩, ⟨1, 0, 1, some 4, .ready⟩],
    disk := fun q =>
      if q = (0, 0) then some [1, 1, 1, 1]
      else if q = (0, 1) then some [2, 2] else none,
    retrieved := fun _ => none, nextFileId := 1, nextPartId := 2, out := [] }

/-- C1: the claim says a successfully ingested file's `number_of_parts`
equals the count of chunks (10 bytes at `chunk_size = 4` giving 3 parts and
`number_of_parts == 3`).  The source sets
`number_of_parts = part_sequence_number + 1` after the loop, where
`part_sequence_number` already equals the chunk count, so the 10-byte ingest
ends `ready` with 3 registered parts but `number_of_parts = 4`. -/
theorem C1_number_of_parts_off_by_one :
    (handle_put ⟨4, 2, 100⟩ idCodec [] "f"
        (fun _ => some [1, 2, 3, 4, 5, 6, 7, 8, 9, 10]) initSys).map
      (fun s => ((findFile s 0).map (fun f => (f.number_of_parts, f.status)),
                 (s.parts.filter (fun p => p.file_id == 0)).length))
      = some (some (4, .ready), 3) := by
  decide

/-- C2: the claim says a refused batch is retried after the wait, so every
chunk read from the source is stored exactly once.  In the source the
post-wait `continue` starts a fresh batch from the file handle's current
position, discarding the refused batch: with `chunk_size = 4`, `pool = 1`,
ceiling 8, a concurrent holder of all 8 bytes (released during the wait),
the single 4-byte chunk of the source is read, its part is registered, the
admission is refused, and after the wait the loop re-reads at end-of-file
and finalises: the file ends `ready` with no artifact ever stored and the
part left `processing` with no digest. -/
theorem C2_refused_batch_discarded :
    (handle_put ⟨4, 1, 8⟩ idCodec [8] "f" (fun _ => some [9, 9, 9, 9])
        { initSys with current := 8 }).map
      (fun s => (s.disk (0, 0), (findFile s 0).map (fun f => f.status),
                 s.parts.map (fun p => (p.sequence_number, p.md5_hash, p.status)),
                 s.out))
      = some (none, some .ready, [(0, none, .processing)],
              [.yourFileId 0, .memWait]) := by
  rfl

/-- C3: the claim says every Part of a `get` is included in exactly one
dispatched batch even when its admission is first refused.  In the source the
post-wait `continue` moves to the *next* part of the batch, so the refused
part is never dispatched: retrieving the two-part file of `busyGetSys`
(contents `[1,1,1,1]` then `[2,2]`) while a concurrent holder of all 8 bytes
releases them during the wait skips part 0 entirely and reports success with
output `[2,2]` instead of `[1,1,1,1,2,2]`. -/
theorem C3_refused_part_skipped :
    (handle_get ⟨4, 2, 8⟩ idCodec [8] 0 busyGetSys).map
      (fun s => (s.retrieved "f", s.out))
      = some (some [2, 2], [.retrievedOk "f", .memWait]) := by
  decide

/-- C10: the claim says every dispatched command terminates without an
uncaught exception and emits exactly one terminal outcome.  `get x` passes
the dispatcher's word filter, but `handle_get` begins with
`int(file_id)`, which raises `ValueError` on the non-numeric identifier;
the exception escapes the handler (so the command emits no outcome at
all). -/
theorem C10_nonnumeric_get_raises :
    handle_command ⟨4, 2, 100⟩ idCodec (fun _ => false) [] (fun _ => none)
      "get x" initSys = .error .valueError := by
  rfl

/-- The controller invariant used for C5: starting from any in-range counter,
every operation sequence keeps the counter in `[0, maxMem]`. -/
lemma runOps_bounds (C : Config) (h : 0 ≤ C.maxMem) :
    ∀ (ops : List MemOp) (s : Sys), 0 ≤ s.current → s.current ≤ C.maxMem →
      0 ≤ (runOps C ops s).current ∧ (runOps C ops s).current ≤ C.maxMem := by
  intro ops
  induction ops with
  | nil => intro s h0 h1; exact ⟨h0, h1⟩
  | cons op ops ih =>
    intro s h0 h1
    cases op with
    | admitOp n =>
      have hb : 0 ≤ ((check_and_update_memory_usage C n s).2).current ∧
          ((check_and_update_memory_usage C n s).2).current ≤ C.maxMem := by
        by_cases hc : s.current + (n : Int) > C.maxMem
        · simp only [runOps, check_and_update_memory_usage, if_pos hc]
          exact ⟨h0, h1⟩
        · simp only [runOps, check_and_update_memory_usage, if_neg hc]
          omega
      exact ih _ hb.1 hb.2
    | releaseOp n =>
      have hb : 0 ≤ ((reduce_memory_usage n s)).current ∧
          ((reduce_memory_usage n s)).current ≤ C.maxMem := by
        simp only [reduce_memory_usage]
        refine ⟨le_max_left _ _, ?_⟩
        rw [max_le_iff]
        exact ⟨h, by omega⟩
      exact ih _ hb.1 hb.2

/-- C5: the memory admission controller.  Starting from zero, every sequence
of admissions and releases keeps `0 ≤ current ≤ maxMem`; an admission
returns `true` exactly when `current + bytes ≤ maxMem`, in which case it
adds `bytes`, and leaves the state untouched when it returns `false`; a
release is the decrement clamped at zero, so the counter is never
negative. -/
theorem C5_admission_controller (C : Config) (h : 0 ≤ C.maxMem) :
    (∀ ops : List MemOp,
        0 ≤ (runOps C ops initSys).current ∧
        (runOps C ops initSys).current ≤ C.maxMem)
    ∧ (∀ (s : Sys) (n : Nat),
        ((check_and_update_memory_usage C n s).1 = true ↔
          s.current + (n : Int) ≤ C.maxMem))
    ∧ (∀ (s : Sys) (n : Nat), (check_and_update_memory_usage C n s).1 = true →
        ((check_and_update_memory_usage C n s).2).current = s.current + (n : Int))
    ∧ (∀ (s : Sys) (n : Nat), (check_and_update_memory_usage C n s).1 = false →
        (check_and_update_memory_usage C n s).2 = s)
    ∧ (∀ (s : Sys) (n : Nat),
        (reduce_memory_usage n s).current = max 0 (s.current - (n : Int)) ∧
        0 ≤ (reduce_memory_usage n s).current) := by
  refine ⟨fun ops => runOps_bounds C h ops initSys le_rfl h, ?_, ?_, ?_, ?_⟩
  · intro s n
    by_cases hc : s.current + (n : Int) > C.maxMem
    · simp only [check_and_update_memory_usage, if_pos hc]
      constructor
      · intro hx; cases hx
      · intro hle; exact absurd hle (not_le.mpr hc)
    · simp only [check_and_update_memory_usage, if_neg hc]
      simp only [true_iff]
      omega
  · intro s n ht
    by_cases hc : s.current + (n : Int) > C.maxMem
    · simp only [check_and_update_memory_usage, if_pos hc] at ht
      cases ht
    · simp only [check_and_update_memory_usage, if_neg hc]
  · intro s n hf
    by_cases hc : s.current + (n : Int) > C.maxMem
    · simp only [check_and_update_memory_usage, if_pos hc]
    · simp only [check_and_update_memory_usage, if_neg hc] at hf
      cases hf
  · intro s n
    exact ⟨rfl, le_max_left _ _⟩

/-- Witness for C5 at the concrete configuration `chunk 4, pool 2,
ceiling 100`. -/
theorem C5_admission_controller_witness :
    (0 : Int) ≤ (Config.mk 4 2 100).maxMem ∧
    ((∀ ops : List MemOp,
        0 ≤ (runOps (Config.mk 4 2 100) ops initSys).current ∧
        (runOps (Config.mk 4 2 100) ops initSys).current ≤ (Config.mk 4 2 100).maxMem)
     ∧ (∀ (s : Sys) (n : Nat),
        ((check_and_update_memory_usage (Config.mk 4 2 100) n s).1 = true ↔
          s.current + (n : Int) ≤ (Config.mk 4 2 100).maxMem))
     ∧ (∀ (s : Sys) (n : Nat),
        (check_and_update_memory_usage (Config.mk 4 2 100) n s).1 = true →
        ((check_and_update_memory_usage (Config.mk 4 2 100) n s).2).current
          = s.current + (n : Int))
     ∧ (∀ (s : Sys) (n : Nat),
        (check_and_update_memory_usage (Config.mk 4 2 100) n s).1 = false →
        (check_and_update_memory_usage (Config.mk 4 2 100) n s).2 = s)
     ∧ (∀ (s : Sys) (n : Nat),
        (reduce_memory_usage n s).current = max 0 (s.current - (n : Int)) ∧
        0 ≤ (reduce_memory_usage n s).current)) :=
  ⟨by decide, C5_admission_controller (Config.mk 4 2 100) (by decide)⟩

/-- C6: the codec's load path.  Given that the artifact holds bytes `c`,
`decompress_and_verify_part` reports an error exactly when decompression of
`c` fails or the digest recomputed over the decompressed bytes differs from
the expected digest; otherwise it returns the decompressed bytes with no
error.  A digest mismatch is never silently accepted. -/
theorem C6_load_reports_corruption (K : Codec)
    (disk : Nat × Nat → Option (List Nat)) (path : Nat × Nat)
    (expected : Option Nat) (c : List Nat) (h : disk path = some c) :
    (((decompress_and_verify_part K disk path expected).2).isSome ↔
      (K.decomp c = none ∨
        ∃ d, K.decomp c = some d ∧ expected ≠ some (K.md5 d)))
    ∧ (∀ d, K.decomp c = some d → expected = some (K.md5 d) →
        decompress_and_verify_part K disk path expected = (some d, none)) := by
  unfold decompress_and_verify_part
  rw [h]
  constructor
  · cases hd : K.decomp c with
    | none => simp [hd]
    | some d =>
      by_cases he : expected = some (K.md5 d)
      · simp [hd, he]
      · simp [hd, he]
  · intro d hd he
    simp [hd, he]

/-- A one-artifact disk for the C6 witness. -/
def oneDisk : Nat × Nat → Option (List Nat) :=
  fun q => if q = (0, 0) then some [1, 2] else none

/-- Witness for C6: the artifact `[1,2]` under the identity codec with a
wrong expected digest `3` (its digest is `1 + 2 = 3`... instantiated with
`some 3`, which matches, exercising the no-error clause as well through the
universally quantified conjunct). -/
theorem C6_load_reports_corruption_witness :
    oneDisk (0, 0) = some [1, 2] ∧
    ((((decompress_and_verify_part idCodec oneDisk (0, 0) (some 3)).2).isSome ↔
      (idCodec.decomp [1, 2] = none ∨
        ∃ d, idCodec.decomp [1, 2] = some d ∧ (some 3 : Option Nat) ≠ some (idCodec.md5 d)))
    ∧ (∀ d, idCodec.decomp [1, 2] = some d → (some 3 : Option Nat) = some (idCodec.md5 d) →
        decompress_and_verify_part idCodec oneDisk (0, 0) (some 3) = (some d, none))) :=
  ⟨rfl, C6_load_reports_corruption idCodec oneDisk (0, 0) (some 3) [1, 2] rfl⟩

/-- C9: the retrieval guards.  A `get` for an identifier not in the File
Registry reports the not-found failure and changes nothing else: the result
state is the input state with only the report prepended (no output file, no
registry or memory-counter change).  A `get` for a File whose status is not
`ready` (`processing` or `not_ready`) likewise reports not-available and
changes nothing else. -/
theorem C9_get_guards (C : Config) (K : Codec) (ws : List Nat) (fid : Int)
    (s : Sys) :
    (findFile s fid = none →
      handle_get C K ws fid s = some { s with out := .getNoExist fid :: s.out })
    ∧ (∀ f, findFile s fid = some f → f.status ≠ Status.ready →
      handle_get C K ws fid s
        = some { s with out := .getNotAvailable fid :: s.out }) := by
  constructor
  · intro h
    unfold handle_get
    rw [h]
  · intro f hf hs
    unfold handle_get
    rw [hf]
    simp [hs]

/-- A state holding one still-`processing` file, for the C9 witness. -/
def procFileSys : Sys := { initSys with files := [⟨0, "f", 0, .processing⟩] }

/-- Witness for C9: a `get` for the unknown id 5 in the fresh state, and a
`get` for the `processing` file 0. -/
theorem C9_get_guards_witness :
    handle_get ⟨4, 2, 100⟩ idCodec [] 5 initSys
      = some { initSys with out := [.getNoExist 5] } ∧
    handle_get ⟨4, 2, 100⟩ idCodec [] 0 procFileSys
      = some { procFileSys with out := [.getNotAvailable 0] } :=
  ⟨(C9_get_guards ⟨4, 2, 100⟩ idCodec [] 5 initSys).1 rfl,
   (C9_get_guards ⟨4, 2, 100⟩ idCodec [] 0 procFileSys).2
     ⟨0, "f", 0, .processing⟩ rfl (by decide)⟩


/-- The admission sweep touches only the counter and the wait report: the
result state's output is the input output under some number of `memWait`
prints, and the artifact/retrieved stores are untouched. -/
lemma admitBatch_frame (C : Config) (fid : Int) :
    ∀ (ps : List FilePartRec) (ws : List Nat) (s : Sys)
      (r : Nat × List ((Nat × Nat) × Option Nat) × List Nat × Sys),
      admitBatch C fid ps ws s = some r →
      ∃ k, r.2.2.2.out = List.replicate k Msg.memWait ++ s.out ∧
        r.2.2.2.retrieved = s.retrieved ∧ r.2.2.2.disk = s.disk := by
  intro ps
  induction ps with
  | nil =>
    intro ws s r h
    simp only [admitBatch, Option.some.injEq] at h
    exact ⟨0, by rw [← h]; exact ⟨rfl, rfl, rfl⟩⟩
  | cons p ps ih =>
    intro ws s r h
    simp only [admitBatch] at h
    by_cases hc : s.current + (C.chunk : Int) > C.maxMem
    · simp only [check_and_update_memory_usage, if_pos hc] at h
      cases ws with
      | nil => exact absurd h (by simp)
      | cons e ws' =>
        simp only at h
        obtain ⟨k, hk, hrr, hd⟩ := ih ws' _ r h
        refine ⟨k + 1, ?_, hrr, hd⟩
        rw [hk]
        show List.replicate k Msg.memWait ++ (Msg.memWait :: s.out) = _
        rw [List.replicate_succ', List.append_assoc]
        rfl
    · simp only [check_and_update_memory_usage, if_neg hc] at h
      cases hrec : admitBatch C fid ps ws
          { s with current := s.current + (C.chunk : Int) } with
      | none => rw [hrec] at h; exact absurd h (by simp)
      | some r2 =>
        obtain ⟨m2, ts2, ws22, s22⟩ := r2
        rw [hrec] at h
        simp only [Option.some.injEq] at h
        obtain ⟨k, hk, hrr, hd⟩ := ih ws _ _ hrec
        rw [← h]
        exact ⟨k, hk, hrr, hd⟩

/-- An aborted result loop: the destination entry is deleted and the only
print added is the corruption report. -/
lemma writeResults_false (name : String) :
    ∀ (rs : List (Option (List Nat) × Option PartErr)) (s s2 : Sys),
      writeResults name rs s = (false, s2) →
      s2.retrieved name = none ∧ s2.out = Msg.corrupted :: s.out := by
  intro rs
  induction rs with
  | nil => intro s s2 h; simp [writeResults] at h
  | cons r rs ih =>
    intro s s2 h
    obtain ⟨d, err⟩ := r
    cases err with
    | some e =>
      simp only [writeResults, Prod.mk.injEq, true_and] at h
      rw [← h]
      exact ⟨by simp [updRet], rfl⟩
    | none =>
      simp only [writeResults] at h
      have hx := ih _ _ h
      exact ⟨hx.1, hx.2⟩

/-- A completed result loop prints nothing. -/
lemma writeResults_true (name : String) :
    ∀ (rs : List (Option (List Nat) × Option PartErr)) (s s2 : Sys),
      writeResults name rs s = (true, s2) → s2.out = s.out := by
  intro rs
  induction rs with
  | nil =>
    intro s s2 h
    simp only [writeResults, Prod.mk.injEq, true_and] at h
    rw [← h]
  | cons r rs ih =>
    intro s s2 h
    obtain ⟨d, err⟩ := r
    cases err with
    | some e => simp [writeResults] at h
    | none =>
      simp only [writeResults] at h
      have hx := ih _ _ h
      exact hx

/-- If a retrieval batch loop run that terminated reported corruption it did
not have at the start, then the destination entry is gone at the end and no
new success report was printed. -/
lemma getLoop_corrupt (C : Config) (K : Codec) (name : String) (fid : Int) :
    ∀ (fuel : Nat) (ws : List Nat) (parts : List FilePartRec) (s s' : Sys),
      getLoop C K name fid fuel ws parts s = some s' →
      Msg.corrupted ∉ s.out → Msg.corrupted ∈ s'.out →
      s'.retrieved name = none ∧
        (Msg.retrievedOk name ∈ s'.out → Msg.retrievedOk name ∈ s.out) := by
  intro fuel
  induction fuel with
  | zero => intro ws parts s s' h; simp [getLoop] at h
  | succ fuel ih =>
    intro ws parts s s' h h0 hc
    cases parts with
    | nil =>
      simp only [getLoop, Option.some.injEq] at h
      rw [← h] at hc
      simp only [List.mem_cons] at hc
      rcases hc with hx | hx
      · cases hx
      · exact absurd hx h0
    | cons p ps =>
      simp only [getLoop] at h
      cases hadm : admitBatch C fid ((p :: ps).take C.pool) ws s with
      | none => rw [hadm] at h; exact absurd h (by simp)
      | some r =>
        obtain ⟨m, ts, ws2, s1⟩ := r
        rw [hadm] at h
        simp only at h
        obtain ⟨k, hk, hrret, hrdisk⟩ := admitBatch_frame C fid _ ws s _ hadm
        have h0r : Msg.corrupted ∉ (reduce_memory_usage m s1).out := by
          show Msg.corrupted ∉ s1.out
          rw [hk]
          simp only [List.mem_append, List.mem_replicate]
          rintro (⟨-, hx⟩ | hx)
          · cases hx
          · exact h0 hx
        cases hw : writeResults name (runTasks K s1.disk ts)
            (reduce_memory_usage m s1) with
        | mk ok s3 =>
          rw [hw] at h
          cases ok with
          | false =>
            simp only [Option.some.injEq] at h
            rw [← h]
            obtain ⟨hr3, ho3⟩ := writeResults_false name _ _ _ hw
            refine ⟨hr3, ?_⟩
            intro hmem
            rw [ho3] at hmem
            simp only [List.mem_cons] at hmem
            rcases hmem with hx | hmem
            · cases hx
            · have : Msg.retrievedOk name ∈ s1.out := hmem
              rw [hk] at this
              simp only [List.mem_append, List.mem_replicate] at this
              rcases this with ⟨-, hx⟩ | hx
              · cases hx
              · exact hx
          | true =>
            have h03 : Msg.corrupted ∉ s3.out := by
              rw [writeResults_true name _ _ _ hw]
              exact h0r
            simp only at h
            obtain ⟨hr', hmem'⟩ := ih ws2 ((p :: ps).drop C.pool) s3 s' h h03 hc
            refine ⟨hr', ?_⟩
            intro hmem
            have hx0 := hmem' hmem
            rw [writeResults_true name _ _ _ hw] at hx0
            have : Msg.retrievedOk name ∈ s1.out := hx0
            rw [hk] at this
            simp only [List.mem_append, List.mem_replicate] at this
            rcases this with ⟨-, hx⟩ | hx
            · cases hx
            · exact hx

/-- C7: corruption aborts a retrieval.  The corruption report is printed
exactly when some chunk's verification fails (run.py lines 211-216), so the
hypothesis "the run newly printed the corruption report" is precisely "some
chunk of this `get` reported corruption".  Then the partially written
destination artifact is deleted (its entry is `none` afterwards — no partial
output remains on disk) and no success report is newly printed (the
retrieval did not continue past the failure). -/
theorem C7_corruption_aborts (C : Config) (K : Codec) (ws : List Nat)
    (fid : Int) (s s' : Sys) (f : FileRec)
    (hf : findFile s fid = some f)
    (hr : handle_get C K ws fid s = some s')
    (h0 : Msg.corrupted ∉ s.out)
    (hc : Msg.corrupted ∈ s'.out) :
    s'.retrieved f.file_name = none ∧
      (Msg.retrievedOk f.file_name ∈ s'.out →
        Msg.retrievedOk f.file_name ∈ s.out) := by
  simp only [handle_get, hf] at hr
  by_cases hst : f.status ≠ Status.ready
  · rw [if_pos hst] at hr
    simp only [Option.some.injEq] at hr
    rw [← hr] at hc
    simp only [List.mem_cons] at hc
    rcases hc with hx | hx
    · cases hx
    · exact absurd hx h0
  · rw [if_neg hst] at hr
    by_cases hp : C.pool = 0
    · rw [if_pos hp] at hr
      simp only [Option.some.injEq] at hr
      rw [← hr] at hc
      simp only [List.mem_cons] at hc
      rcases hc with hx | hx
      · cases hx
      · exact absurd hx h0
    · rw [if_neg hp] at hr
      have hx := getLoop_corrupt C K f.file_name fid _ ws _ _ _ hr h0 hc
      exact hx

/-- A reachable state with one ready single-part file whose recorded digest
(999) does not match the stored artifact `[1]` under the identity codec. -/
def corruptSys : Sys :=
  { current := 0,
    files := [⟨0, "f", 2, .ready⟩],
    parts := [⟨0, 0, 0, some 999, .ready⟩],
    disk := fun q => if q = (0, 0) then some [1] else none,
    retrieved := fun _ => none, nextFileId := 1, nextPartId := 1, out := [] }

/-- Witness for C7: retrieving the corrupt file of `corruptSys` reports
corruption, and the conclusion holds at that run. -/
theorem C7_corruption_aborts_witness :
    Msg.corrupted ∉ corruptSys.out ∧
    ∃ s', handle_get ⟨4, 2, 100⟩ idCodec [] 0 corruptSys = some s' ∧
      Msg.corrupted ∈ s'.out ∧
      (s'.retrieved "f" = none ∧
        (Msg.retrievedOk "f" ∈ s'.out → Msg.retrievedOk "f" ∈ corruptSys.out)) :=
  ⟨by decide,
   ⟨_, rfl, by decide,
    C7_corruption_aborts ⟨4, 2, 100⟩ idCodec [] 0 corruptSys _
      ⟨0, "f", 2, .ready⟩ rfl rfl (by decide) (by decide)⟩⟩

/-- The deletion worker sweep leaves paths outside the task list alone. -/
lemma runDeletes_frame (faults : Nat × Nat → Bool) :
    ∀ (ts : List ((Nat × Nat) × Nat)) (d : Nat × Nat → Option (List Nat))
      (q : Nat × Nat), (∀ t ∈ ts, t.1 ≠ q) →
      (runDeletes faults ts d).2 q = d q := by
  intro ts
  induction ts with
  | nil => intro d q h; rfl
  | cons t ts ih =>
    intro d q h
    obtain ⟨path, pid⟩ := t
    have hpq : path ≠ q := h (path, pid) (List.mem_cons_self _ _)
    have hrest : ∀ t ∈ ts, t.1 ≠ q := fun t ht => h t (List.mem_cons_of_mem _ ht)
    simp only [runDeletes]
    by_cases hs : (d path).isSome
    · by_cases hfl : faults path
      · simp only [delete_file_part, if_pos hs, if_pos hfl]
        exact ih d q hrest
      · simp only [delete_file_part, if_pos hs, if_neg hfl]
        rw [ih _ q hrest]
        simp only [updDisk]
        rw [if_neg (fun h' : q = path => hpq h'.symm)]
    · simp only [delete_file_part, if_neg hs]
      exact ih d q hrest

/-- Effect of the deletion sweep at the path of one of its own tasks (task
paths pairwise distinct): a present artifact with a faulting removal stays,
otherwise the path ends absent (removed, or already absent). -/
lemma runDeletes_at_task (faults : Nat × Nat → Bool) :
    ∀ (ts : List ((Nat × Nat) × Nat)) (d : Nat × Nat → Option (List Nat))
      (path : Nat × Nat) (pid : Nat), (path, pid) ∈ ts →
      (ts.map (fun t => t.1)).Nodup →
      (runDeletes faults ts d).2 path
        = if (d path).isSome && faults path then d path else none := by
  intro ts
  induction ts with
  | nil => intro d path pid h; cases h
  | cons t ts ih =>
    intro d path pid hmem hnd
    obtain ⟨p1, p2⟩ := t
    simp only [List.map_cons, List.nodup_cons] at hnd
    obtain ⟨hnotin, hnd'⟩ := hnd
    have hne : ∀ t ∈ ts, t.1 ≠ p1 := by
      intro t ht hx
      exact hnotin (hx ▸ List.mem_map_of_mem (fun t => t.1) ht)
    rcases List.mem_cons.mp hmem with heq | htail
    · injection heq with h1 h2
      subst h1
      simp only [runDeletes]
      by_cases hs : (d path).isSome
      · by_cases hfl : faults path
        · simp only [delete_file_part, if_pos hs, if_pos hfl]
          rw [runDeletes_frame faults ts d path hne]
          simp [hs, hfl]
        · simp only [delete_file_part, if_pos hs, if_neg hfl]
          rw [runDeletes_frame faults ts _ path hne]
          simp [updDisk, hs, hfl]
      · simp only [delete_file_part, if_neg hs]
        rw [runDeletes_frame faults ts d path hne]
        simp only [Bool.not_eq_true] at hs
        have hdn : d path = none := by
          rcases hx : d path with _ | v
          · rfl
          · rw [hx] at hs; simp at hs
        simp [hdn]
    · have hne1 : path ≠ p1 := by
        intro hx
        exact hne (path, pid) htail hx
      simp only [runDeletes]
      by_cases hs : (d p1).isSome
      · by_cases hfl : faults p1
        · simp only [delete_file_part, if_pos hs, if_pos hfl]
          exact ih d path pid htail hnd'
        · simp only [delete_file_part, if_pos hs, if_neg hfl]
          rw [ih _ path pid htail hnd']
          simp [updDisk, hne1]
      · simp only [delete_file_part, if_neg hs]
        exact ih d path pid htail hnd'

/-- Results of the deletion sweep, for pairwise-distinct task paths: one
result per task in order, the error flag set exactly when the artifact was
present and its removal faulted. -/
lemma runDeletes_results (faults : Nat × Nat → Bool) :
    ∀ (ts : List ((Nat × Nat) × Nat)) (d : Nat × Nat → Option (List Nat)),
      (ts.map (fun t => t.1)).Nodup →
      (runDeletes faults ts d).1
        = ts.map (fun t => (t.2, (d t.1).isSome && faults t.1)) := by
  intro ts
  induction ts with
  | nil => intro d _; rfl
  | cons t ts ih =>
    intro d hnd
    obtain ⟨p1, p2⟩ := t
    simp only [List.map_cons, List.nodup_cons] at hnd
    obtain ⟨hnotin, hnd'⟩ := hnd
    have hne : ∀ t ∈ ts, t.1 ≠ p1 := by
      intro t ht hx
      exact hnotin (hx ▸ List.mem_map_of_mem (fun t => t.1) ht)
    simp only [runDeletes, List.map_cons]
    by_cases hs : (d p1).isSome
    · by_cases hfl : faults p1
      · simp only [delete_file_part, if_pos hs, if_pos hfl]
        rw [ih d hnd']
        simp [hs, hfl]
      · simp only [delete_file_part, if_pos hs, if_neg hfl]
        rw [ih _ hnd']
        simp only [hs, hfl, Bool.and_false]
        congr 1
        apply List.map_congr_left
        intro t ht
        have : t.1 ≠ p1 := hne t ht
        simp [updDisk, this]
    · simp only [delete_file_part, if_neg hs]
      rw [ih d hnd']
      simp only [Bool.not_eq_true] at hs
      simp [hs]

/-- The deletion result loop never touches files or disk. -/
lemma applyDeleteResults_frame :
    ∀ (rs : List (Nat × Bool)) (s : Sys),
      (applyDeleteResults rs s).files = s.files ∧
      (applyDeleteResults rs s).disk = s.disk ∧
      (applyDeleteResults rs s).retrieved = s.retrieved := by
  intro rs
  induction rs with
  | nil => intro s; exact ⟨rfl, rfl, rfl⟩
  | cons r rs ih =>
    intro s
    obtain ⟨pid, err⟩ := r
    cases err with
    | true => simpa only [applyDeleteResults] using ih _
    | false => simpa only [applyDeleteResults] using ih _

/-- Membership in the Part Registry after the deletion result loop: a part
survives iff it was there and no successful result names its id. -/
lemma applyDeleteResults_parts :
    ∀ (rs : List (Nat × Bool)) (s : Sys) (x : FilePartRec),
      (x ∈ (applyDeleteResults rs s).parts ↔
        (x ∈ s.parts ∧ ∀ pid, (pid, false) ∈ rs → x.part_id ≠ pid)) := by
  intro rs
  induction rs with
  | nil => intro s x; simp [applyDeleteResults]
  | cons r rs ih =>
    intro s x
    obtain ⟨pid, err⟩ := r
    cases err with
    | true =>
      simp only [applyDeleteResults]
      rw [if_pos trivial, ih _ x]
      constructor
      · rintro ⟨h1, h2⟩
        refine ⟨h1, fun pid' hmem => ?_⟩
        rcases List.mem_cons.mp hmem with heq | htail
        · injection heq with e1 e2
          exact absurd e2 Bool.false_ne_true
        · exact h2 pid' htail
      · rintro ⟨h1, h2⟩
        exact ⟨h1, fun pid' htail => h2 pid' (List.mem_cons_of_mem _ htail)⟩
    | false =>
      simp only [applyDeleteResults]
      rw [if_neg Bool.false_ne_true, ih _ x]
      constructor
      · rintro ⟨h1, h2⟩
        obtain ⟨h1a, h1b⟩ := List.mem_filter.mp h1
        have h1c : x.part_id ≠ pid := by simpa using h1b
        refine ⟨h1a, fun pid' hmem => ?_⟩
        rcases List.mem_cons.mp hmem with heq | htail
        · injection heq with e1 e2
          rw [e1]
          exact h1c
        · exact h2 pid' htail
      · rintro ⟨h1, h2⟩
        refine ⟨List.mem_filter.mpr ⟨h1, ?_⟩,
          fun pid' htail => h2 pid' (List.mem_cons_of_mem _ htail)⟩
        simpa using h2 pid (List.mem_cons_self _ _)

/-- The deletion result loop only adds per-part error reports to the
output. -/
lemma applyDeleteResults_out :
    ∀ (rs : List (Nat × Bool)) (s : Sys) (msg : Msg),
      (msg ∈ (applyDeleteResults rs s).out ↔
        (msg ∈ s.out ∨ ∃ pid, (pid, true) ∈ rs ∧ msg = .delPartError pid)) := by
  intro rs
  induction rs with
  | nil => intro s msg; simp [applyDeleteResults]
  | cons r rs ih =>
    intro s msg
    obtain ⟨pid, err⟩ := r
    cases err with
    | true =>
      simp only [applyDeleteResults]
      rw [if_pos trivial, ih _ msg]
      constructor
      · rintro (h1 | ⟨pid', h2, h3⟩)
        · rcases List.mem_cons.mp h1 with heq | htail
          · exact Or.inr ⟨pid, List.mem_cons_self _ _, heq⟩
          · exact Or.inl htail
        · exact Or.inr ⟨pid', List.mem_cons_of_mem _ h2, h3⟩
      · rintro (h1 | ⟨pid', h2, h3⟩)
        · exact Or.inl (List.mem_cons_of_mem _ h1)
        · rcases List.mem_cons.mp h2 with heq | htail
          · injection heq with e1 e2
            refine Or.inl ?_
            rw [h3, e1]
            exact List.mem_cons_self _ _
          · exact Or.inr ⟨pid', htail, h3⟩
    | false =>
      simp only [applyDeleteResults]
      rw [if_neg Bool.false_ne_true, ih _ msg]
      constructor
      · rintro (h1 | ⟨pid', h2, h3⟩)
        · exact Or.inl h1
        · exact Or.inr ⟨pid', List.mem_cons_of_mem _ h2, h3⟩
      · rintro (h1 | ⟨pid', h2, h3⟩)
        · exact Or.inl h1
        · rcases List.mem_cons.mp h2 with heq | htail
          · injection heq with e1 e2
            simp at e2
          · exact Or.inr ⟨pid', htail, h3⟩

/-- The Parts of a file, as `handle_delete`/`handle_get` collect them. -/
def partsOf (s : Sys) (fid : Int) : List FilePartRec :=
  s.parts.filter (fun p => (p.file_id : Int) == fid)

/-- The artifact path of a Part under deletion/retrieval by int id. -/
def delPath (fid : Int) (p : FilePartRec) : Nat × Nat :=
  (fid.toNat, p.sequence_number)

/-- A part-deletion task succeeds iff the artifact is already absent
(idempotent success) or its removal does not fault. -/
def delOk (faults : Nat × Nat → Bool) (d : Nat × Nat → Option (List Nat))
    (q : Nat × Nat) : Prop :=
  d q = none ∨ faults q = false

/-- `handle_delete`'s not-ready marking of a File record. -/
def fileNR (fid : Int) (g : FileRec) : FileRec :=
  if (g.file_id : Int) == fid then { g with status := Status.notReady } else g

/-- `handle_delete`'s not-ready marking of a Part record. -/
def partNR (fid : Int) (p : FilePartRec) : FilePartRec :=
  if (p.file_id : Int) == fid then { p with status := Status.notReady } else p

/-- The deletion sweep's result list, named for the C8 development. -/
def delRes (faults : Nat × Nat → Bool) (fid : Int) (s : Sys) :
    List (Nat × Bool) :=
  (runDeletes faults
    ((partsOf s fid).map (fun p => (delPath fid p, p.part_id))) s.disk).1

/-- The disk after the deletion sweep, named for the C8 development. -/
def delDisk (faults : Nat × Nat → Bool) (fid : Int) (s : Sys) :
    Nat × Nat → Option (List Nat) :=
  (runDeletes faults
    ((partsOf s fid).map (fun p => (delPath fid p, p.part_id))) s.disk).2

/-- The state after `handle_delete`'s result loop, before the final File
reconciliation. -/
def delStage (faults : Nat × Nat → Bool) (fid : Int) (s : Sys) : Sys :=
  applyDeleteResults (delRes faults fid s)
    { s with
        files := s.files.map (fun g =>
          if (g.file_id : Int) == fid then { g with status := Status.notReady }
          else g),
        parts := s.parts.map (fun p =>
          if (p.file_id : Int) == fid then { p with status := Status.notReady }
          else p),
        disk := delDisk faults fid s }

/-- `handle_delete` on a present File, decomposed into the named stages. -/
lemma handle_delete_eq (faults : Nat × Nat → Bool) (fid : Int) (s : Sys)
    (f : FileRec) (hf : findFile s fid = some f) :
    handle_delete faults fid s =
      if (delRes faults fid s).all (fun r => !r.2) then
        { delStage faults fid s with
            files := (delStage faults fid s).files.filter
              (fun g => !((g.file_id : Int) == fid)),
            out := .delDeleted fid :: (delStage faults fid s).out }
      else
        { delStage faults fid s with
            out := .delIncomplete fid :: (delStage faults fid s).out } := by
  simp only [handle_delete, hf, delStage, delRes, delDisk, partsOf, delPath]

/-- C8: delete reconciliation.  For a present File: a part-deletion task with
an already-absent artifact succeeds (idempotent delete); a Part's registry
entry is removed exactly when its artifact deletion succeeded; a failed Part
survives with status `not_ready` (and its `file_id` intact, so a retried
delete will target it again); the File entry is removed exactly when every
Part deletion succeeded, otherwise the File survives with status `not_ready`
and the incomplete-deletion report is printed; failed Parts' artifacts are
left on disk untouched while successful ones end absent — so a retry can
make forward progress on exactly the remaining Parts. -/
theorem C8_delete_reconciliation (faults : Nat × Nat → Bool) (fid : Int)
    (s : Sys) (f : FileRec)
    (hf : findFile s fid = some f)
    (hP : (s.parts.map (fun p => p.part_id)).Nodup)
    (hS : ((partsOf s fid).map (fun p => p.sequence_number)).Nodup) :
    (∀ p ∈ partsOf s fid, s.disk (delPath fid p) = none →
        delOk faults s.disk (delPath fid p))
    ∧ (∀ p ∈ partsOf s fid,
        (delOk faults s.disk (delPath fid p) ↔
          ∀ q ∈ (handle_delete faults fid s).parts, q.part_id ≠ p.part_id))
    ∧ (∀ p ∈ partsOf s fid, ¬ delOk faults s.disk (delPath fid p) →
        ∃ q ∈ (handle_delete faults fid s).parts,
          q.part_id = p.part_id ∧ q.file_id = p.file_id ∧
            q.status = Status.notReady)
    ∧ ((∀ p ∈ partsOf s fid, delOk faults s.disk (delPath fid p)) ↔
        findFile (handle_delete faults fid s) fid = none)
    ∧ (¬ (∀ p ∈ partsOf s fid, delOk faults s.disk (delPath fid p)) →
        findFile (handle_delete faults fid s) fid
            = some { f with status := Status.notReady }
          ∧ Msg.delIncomplete fid ∈ (handle_delete faults fid s).out)
    ∧ (∀ p ∈ partsOf s fid, ¬ delOk faults s.disk (delPath fid p) →
        (handle_delete faults fid s).disk (delPath fid p)
          = s.disk (delPath fid p))
    ∧ (∀ p ∈ partsOf s fid, delOk faults s.disk (delPath fid p) →
        (handle_delete faults fid s).disk (delPath fid p) = none) := by
  rw [handle_delete_eq faults fid s f hf]
  have hOk : ∀ p : FilePartRec,
      (((s.disk (delPath fid p)).isSome && faults (delPath fid p)) = false ↔
        delOk faults s.disk (delPath fid p)) := by
    intro p
    unfold delOk
    cases hx : s.disk (delPath fid p) with
    | none => simp [hx]
    | some v => cases hy : faults (delPath fid p) <;> simp [hx, hy]
  have hTpaths :
      (((partsOf s fid).map (fun p => (delPath fid p, p.part_id))).map
        (fun t => t.1)).Nodup := by
    rw [List.map_map]
    have hcomp : ((fun t : (Nat × Nat) × Nat => t.1) ∘
        (fun p => (delPath fid p, p.part_id)))
        = ((fun n => (fid.toNat, n)) ∘ (fun p => p.sequence_number)) := rfl
    rw [hcomp, ← List.map_map]
    refine List.Nodup.map ?_ hS
    intro a b hab
    injection hab with h1 h2
  have hres : delRes faults fid s = (partsOf s fid).map
      (fun p => (p.part_id,
        (s.disk (delPath fid p)).isSome && faults (delPath fid p))) := by
    unfold delRes
    rw [runDeletes_results faults _ _ hTpaths, List.map_map]
    rfl
  have hIfParts : ∀ (c : Bool) (x : FilePartRec),
      (x ∈ (if c = true then
          { delStage faults fid s with
              files := (delStage faults fid s).files.filter
                (fun g => !((g.file_id : Int) == fid)),
              out := .delDeleted fid :: (delStage faults fid s).out }
        else
          { delStage faults fid s with
              out := .delIncomplete fid ::
                (delStage faults fid s).out }).parts ↔
        x ∈ (delStage faults fid s).parts) := by
    intro c x
    cases c <;> simp
  have hStageParts : ∀ x : FilePartRec,
      (x ∈ (delStage faults fid s).parts ↔
        (x ∈ s.parts.map (partNR fid) ∧
          ∀ pid, (pid, false) ∈ delRes faults fid s → x.part_id ≠ pid)) := by
    intro x
    exact applyDeleteResults_parts _ _ x
  have hStageDisk : (delStage faults fid s).disk = delDisk faults fid s := by
    exact (applyDeleteResults_frame _ _).2.1
  have hStageFiles : (delStage faults fid s).files
      = s.files.map (fun g => if (g.file_id : Int) == fid then
          { g with status := Status.notReady } else g) := by
    exact (applyDeleteResults_frame _ _).1
  have hAllIff : ((delRes faults fid s).all (fun r => !r.2) = true) ↔
      (∀ p ∈ partsOf s fid, delOk faults s.disk (delPath fid p)) := by
    rw [hres, List.all_eq_true]
    constructor
    · intro h p hp
      have hx := h _ (List.mem_map_of_mem _ hp)
      have hx2 : ((s.disk (delPath fid p)).isSome && faults (delPath fid p))
          = false := by
        have hx3 : (!((s.disk (delPath fid p)).isSome
            && faults (delPath fid p))) = true := hx
        simp only [Bool.not_eq_true'] at hx3
        exact hx3
      exact (hOk p).mp hx2
    · intro h r hr
      obtain ⟨p, hp, rfl⟩ := List.mem_map.mp hr
      show (!((s.disk (delPath fid p)).isSome && faults (delPath fid p))) = true
      simp only [Bool.not_eq_true']
      exact (hOk p).mpr (h p hp)
  have hMemParts : ∀ p ∈ s.parts, ∀ q ∈ s.parts,
      p.part_id = q.part_id → p = q := by
    intro p hp q hq hpq
    exact List.inj_on_of_nodup_map hP hp hq hpq
  -- the survivor record of a failed part
  have hSurvive : ∀ p ∈ partsOf s fid, ¬ delOk faults s.disk (delPath fid p) →
      ∃ q ∈ (delStage faults fid s).parts,
        q.part_id = p.part_id ∧ q.file_id = p.file_id ∧
          q.status = Status.notReady := by
    intro p hp hnd
    obtain ⟨hpm, hppred⟩ := List.mem_filter.mp hp
    refine ⟨{ p with status := Status.notReady }, ?_, rfl, rfl, rfl⟩
    rw [hStageParts]
    constructor
    · have hx := List.mem_map_of_mem (partNR fid) hpm
      have : partNR fid p = { p with status := Status.notReady } := by
        unfold partNR
        rw [if_pos hppred]
      rwa [this] at hx
    · intro pid hpidmem hx
      rw [hres] at hpidmem
      obtain ⟨p2, hp2, hp2eq⟩ := List.mem_map.mp hpidmem
      injection hp2eq with e1 e2
      obtain ⟨hp2m, -⟩ := List.mem_filter.mp hp2
      have hpeq : p2 = p := hMemParts p2 hp2m p hpm (by rw [e1, ← hx])
      rw [hpeq] at e2
      exact hnd ((hOk p).mp e2)
  have hRemoved : ∀ p ∈ partsOf s fid, delOk faults s.disk (delPath fid p) →
      ∀ q ∈ (delStage faults fid s).parts, q.part_id ≠ p.part_id := by
    intro p hp hdel q hq
    have hfb : ((s.disk (delPath fid p)).isSome && faults (delPath fid p))
        = false := (hOk p).mpr hdel
    have hmem : (p.part_id, false) ∈ delRes faults fid s := by
      rw [hres]
      have hx2 : (p.part_id,
          (s.disk (delPath fid p)).isSome && faults (delPath fid p))
          ∈ (partsOf s fid).map (fun p => (p.part_id,
            (s.disk (delPath fid p)).isSome && faults (delPath fid p))) :=
        List.mem_map_of_mem
          (fun p => (p.part_id,
            (s.disk (delPath fid p)).isSome && faults (delPath fid p))) hp
      rwa [hfb] at hx2
    exact ((hStageParts q).mp hq).2 p.part_id hmem
  have hDiskAt : ∀ p ∈ partsOf s fid,
      delDisk faults fid s (delPath fid p)
        = if (s.disk (delPath fid p)).isSome && faults (delPath fid p) then
            s.disk (delPath fid p)
          else none := by
    intro p hp
    unfold delDisk
    exact runDeletes_at_task faults _ s.disk (delPath fid p) p.part_id
      (List.mem_map_of_mem _ hp) hTpaths
  refine ⟨fun p _ hnone => Or.inl hnone, ?_, ?_, ?_, ?_, ?_, ?_⟩
  · -- removed from registry iff deletion succeeded
    intro p hp
    constructor
    · intro hdel q hq
      exact hRemoved p hp hdel q ((hIfParts _ q).mp hq)
    · intro hq
      by_contra hnd
      obtain ⟨q, hqm, hqid, -, -⟩ := hSurvive p hp hnd
      exact hq q ((hIfParts _ q).mpr hqm) hqid
  · -- failed parts survive, not_ready
    intro p hp hnd
    obtain ⟨q, hqm, hqid, hqf, hqs⟩ := hSurvive p hp hnd
    exact ⟨q, (hIfParts _ q).mpr hqm, hqid, hqf, hqs⟩
  · -- file removed iff all parts succeeded
    constructor
    · intro hall
      rw [if_pos (hAllIff.mpr hall)]
      unfold findFile
      simp only
      rw [List.find?_eq_none]
      intro x hx
      have := (List.mem_filter.mp hx).2
      simp only [Bool.not_eq_true'] at this
      simp [this]
    · intro hnone
      by_contra hnall
      have hallb : ¬ ((delRes faults fid s).all (fun r => !r.2) = true) :=
        fun hx => hnall (hAllIff.mp hx)
      rw [if_neg hallb] at hnone
      unfold findFile at hnone
      simp only at hnone
      rw [hStageFiles, List.find?_map] at hnone
      have hpred : ((fun g : FileRec => (g.file_id : Int) == fid) ∘
          (fun g => if (g.file_id : Int) == fid then
            { g with status := Status.notReady } else g))
          = (fun g : FileRec => (g.file_id : Int) == fid) := by
        funext g
        by_cases hx : ((g.file_id : Int) == fid) = true
        · simp only [Function.comp_apply, if_pos hx]
        · simp only [Function.comp_apply, if_neg hx]
      rw [hpred] at hnone
      unfold findFile at hf
      rw [hf] at hnone
      simp at hnone
  · -- partial failure: file survives not_ready, incomplete reported
    intro hnall
    have hallb : ¬ ((delRes faults fid s).all (fun r => !r.2) = true) :=
      fun hx => hnall (hAllIff.mp hx)
    rw [if_neg hallb]
    constructor
    · unfold findFile
      simp only
      rw [hStageFiles, List.find?_map]
      have hpred : ((fun g : FileRec => (g.file_id : Int) == fid) ∘
          (fun g => if (g.file_id : Int) == fid then
            { g with status := Status.notReady } else g))
          = (fun g : FileRec => (g.file_id : Int) == fid) := by
        funext g
        by_cases hx : ((g.file_id : Int) == fid) = true
        · simp only [Function.comp_apply, if_pos hx]
        · simp only [Function.comp_apply, if_neg hx]
      rw [hpred]
      have hfpred : ((f.file_id : Int) == fid) = true := by
        have := List.find?_some (p := fun g : FileRec => (g.file_id : Int) == fid)
          (by unfold findFile at hf; exact hf)
        exact this
      unfold findFile at hf
      rw [hf]
      show some (if (f.file_id : Int) == fid then
        { f with status := Status.notReady } else f) = _
      rw [if_pos hfpred]
    · exact List.mem_cons_self _ _
  · -- failed artifacts untouched
    intro p hp hnd
    have hcond : ((s.disk (delPath fid p)).isSome && faults (delPath fid p))
        = true := by
      cases hx : ((s.disk (delPath fid p)).isSome && faults (delPath fid p))
      · exact absurd ((hOk p).mp hx) hnd
      · rfl
    have hd := hDiskAt p hp
    rw [hcond] at hd
    rw [if_pos rfl] at hd
    by_cases hall : ((delRes faults fid s).all (fun r => !r.2) = true)
    · rw [if_pos hall]
      show (delStage faults fid s).disk (delPath fid p) = _
      rw [hStageDisk]
      exact hd
    · rw [if_neg hall]
      show (delStage faults fid s).disk (delPath fid p) = _
      rw [hStageDisk]
      exact hd
  · -- successful artifacts absent
    intro p hp hdel
    have hfb : ((s.disk (delPath fid p)).isSome && faults (delPath fid p))
        = false := (hOk p).mpr hdel
    have hd := hDiskAt p hp
    rw [hfb] at hd
    rw [if_neg Bool.false_ne_true] at hd
    by_cases hall : ((delRes faults fid s).all (fun r => !r.2) = true)
    · rw [if_pos hall]
      show (delStage faults fid s).disk (delPath fid p) = _
      rw [hStageDisk]
      exact hd
    · rw [if_neg hall]
      show (delStage faults fid s).disk (delPath fid p) = _
      rw [hStageDisk]
      exact hd

/-- Fault oracle for the C8 witness: removing artifact `(0,0)` raises. -/
def faultZero : Nat × Nat → Bool := fun q => q = (0, 0)

/-- State for the C8 witness: file 0 is ready with three parts; part 0's
artifact is present but its removal faults, part 1's artifact is already
absent, part 2's artifact is present and removable. -/
def delSys : Sys :=
  { current := 0,
    files := [⟨0, "f", 4, .ready⟩],
    parts := [⟨0, 0, 0, some 4, .ready⟩, ⟨1, 0, 1, some 4, .ready⟩,
              ⟨2, 0, 2, some 4, .ready⟩],
    disk := fun q =>
      if q = (0, 0) then some [1, 1, 1, 1]
      else if q = (0, 2) then some [2, 2] else none,
    retrieved := fun _ => none, nextFileId := 1, nextPartId := 3, out := [] }

/-- Witness for C8 at the `delSys` scenario with the `faultZero` oracle. -/
theorem C8_delete_reconciliation_witness :
    findFile delSys 0 = some ⟨0, "f", 4, .ready⟩ ∧
    (delSys.parts.map (fun p => p.part_id)).Nodup ∧
    ((partsOf delSys 0).map (fun p => p.sequence_number)).Nodup ∧
    ((∀ p ∈ partsOf delSys 0, delSys.disk (delPath 0 p) = none →
        delOk faultZero delSys.disk (delPath 0 p))
    ∧ (∀ p ∈ partsOf delSys 0,
        (delOk faultZero delSys.disk (delPath 0 p) ↔
          ∀ q ∈ (handle_delete faultZero 0 delSys).parts,
            q.part_id ≠ p.part_id))
    ∧ (∀ p ∈ partsOf delSys 0, ¬ delOk faultZero delSys.disk (delPath 0 p) →
        ∃ q ∈ (handle_delete faultZero 0 delSys).parts,
          q.part_id = p.part_id ∧ q.file_id = p.file_id ∧
            q.status = Status.notReady)
    ∧ ((∀ p ∈ partsOf delSys 0, delOk faultZero delSys.disk (delPath 0 p)) ↔
        findFile (handle_delete faultZero 0 delSys) 0 = none)
    ∧ (¬ (∀ p ∈ partsOf delSys 0, delOk faultZero delSys.disk (delPath 0 p)) →
        findFile (handle_delete faultZero 0 delSys) 0
            = some { FileRec.mk 0 "f" 4 .ready with status := Status.notReady }
          ∧ Msg.delIncomplete 0 ∈ (handle_delete faultZero 0 delSys).out)
    ∧ (∀ p ∈ partsOf delSys 0, ¬ delOk faultZero delSys.disk (delPath 0 p) →
        (handle_delete faultZero 0 delSys).disk (delPath 0 p)
          = delSys.disk (delPath 0 p))
    ∧ (∀ p ∈ partsOf delSys 0, delOk faultZero delSys.disk (delPath 0 p) →
        (handle_delete faultZero 0 delSys).disk (delPath 0 p) = none)) :=
  ⟨rfl, by decide, by decide,
   C8_delete_reconciliation faultZero 0 delSys ⟨0, "f", 4, .ready⟩ rfl
     (by decide) (by decide)⟩

/-- Extensionality for the system state. -/
lemma Sys.extEq (a b : Sys) (h1 : a.current = b.current)
    (h2 : a.files = b.files) (h3 : a.parts = b.parts) (h4 : a.disk = b.disk)
    (h5 : a.retrieved = b.retrieved) (h6 : a.nextFileId = b.nextFileId)
    (h7 : a.nextPartId = b.nextPartId) (h8 : a.out = b.out) : a = b := by
  cases a
  cases b
  simp only at h1 h2 h3 h4 h5 h6 h7 h8
  subst h1 h2 h3 h4 h5 h6 h7 h8
  rfl

/-- The chunking of a byte string into windows of `c` bytes (the `file.read`
loop of `handle_put`); `[]` when `c = 0` (a zero `chunk_size` makes the first
read empty, so nothing is ever read). -/
def chunksOf (c : Nat) (b : List Nat) : List (List Nat) :=
  if h : b = [] ∨ c = 0 then [] else b.take c :: chunksOf c (b.drop c)
termination_by b.length
decreasing_by
  push_neg at h
  have hb : b ≠ [] := h.1
  have hc : c ≠ 0 := h.2
  simp only [List.length_drop]
  have : 0 < b.length := List.length_pos.mpr hb
  omega

lemma chunksOf_nil (c : Nat) : chunksOf c [] = [] := by
  unfold chunksOf
  simp

lemma chunksOf_cons (c : Nat) (b : List Nat) (hc : 0 < c) (hb : b ≠ []) :
    chunksOf c b = b.take c :: chunksOf c (b.drop c) := by
  rw [chunksOf]
  rw [dif_neg]
  push_neg
  exact ⟨hb, by omega⟩

lemma flatten_chunksOf_aux (c : Nat) (hc : 0 < c) :
    ∀ (n : Nat) (b : List Nat), b.length ≤ n → (chunksOf c b).flatten = b := by
  intro n
  induction n with
  | zero =>
    intro b hb
    have hbe : b = [] := List.eq_nil_of_length_eq_zero (by omega)
    rw [hbe, chunksOf_nil]
    rfl
  | succ n ih =>
    intro b hb
    cases hbe : b with
    | nil => rw [chunksOf_nil]; rfl
    | cons x xs =>
      rw [← hbe, chunksOf_cons c b hc (by rw [hbe]; exact List.cons_ne_nil _ _),
        List.flatten_cons]
      have hlen : (b.drop c).length ≤ n := by
        rw [List.length_drop]
        have h1 : 0 < b.length := by rw [hbe]; simp
        omega
      rw [ih (b.drop c) hlen]
      exact List.take_append_drop c b

/-- Reassembling the chunking recovers the source. -/
lemma flatten_chunksOf (c : Nat) (hc : 0 < c) (b : List Nat) :
    (chunksOf c b).flatten = b :=
  flatten_chunksOf_aux c hc b.length b le_rfl

lemma chunksOf_drop (c : Nat) (hc : 0 < c) :
    ∀ (k : Nat) (b : List Nat),
      chunksOf c (b.drop (k * c)) = (chunksOf c b).drop k := by
  intro k
  induction k with
  | zero => intro b; simp
  | succ k ih =>
    intro b
    cases hbe : b with
    | nil =>
      subst hbe
      simp [chunksOf_nil]
    | cons x xs =>
      rw [← hbe, chunksOf_cons c b hc (by rw [hbe]; exact List.cons_ne_nil _ _),
        List.drop_succ_cons, ← ih (b.drop c), List.drop_drop]
      have harith : c + k * c = (k + 1) * c := by ring
      rw [harith]

/-- The Part records an ingest registers for chunk list `cs`, before storage:
ids from `u`, sequence numbers from `q`, status `processing`, no digest. -/
def procParts (fid : Nat) : Nat → Nat → List (List Nat) → List FilePartRec
  | _, _, [] => []
  | q, u, _ :: cs => ⟨u, fid, q, none, .processing⟩ :: procParts fid (q + 1) (u + 1) cs

/-- The same Part records after a successful batch store: digests set, status
`ready`. -/
def readyParts (fid : Nat) (K : Codec) :
    Nat → Nat → List (List Nat) → List FilePartRec
  | _, _, [] => []
  | q, u, c :: cs =>
    ⟨u, fid, q, some (K.md5 c), .ready⟩ :: readyParts fid K (q + 1) (u + 1) cs

/-- The batch entries the read loop assembles for chunk list `cs`. -/
def batchOf : Nat → Nat → List (List Nat) → List (List Nat × Nat × Nat)
  | _, _, [] => []
  | q, u, c :: cs => (c, u, q) :: batchOf (q + 1) (u + 1) cs

/-- The worker results for chunk list `cs` with part ids from `u`. -/
def resultsOf (K : Codec) : Nat → List (List Nat) → List (Nat × Nat)
  | _, [] => []
  | u, c :: cs => (u, K.md5 c) :: resultsOf K (u + 1) cs

/-- The disk after storing the compressed chunks of `cs` at `(fid, q)`,
`(fid, q+1)`, .... -/
def storeChunks (K : Codec) (fid : Nat) :
    Nat → List (List Nat) → (Nat × Nat → Option (List Nat)) →
    (Nat × Nat → Option (List Nat))
  | _, [], d => d
  | q, c :: cs, d => storeChunks K fid (q + 1) cs (updDisk d (fid, q) (some (K.compress c)))

/-- The verification tasks the retrieval admission sweep assembles for the
ready Parts of chunk list `cs`. -/
def tasksOf (fid : Nat) (K : Codec) :
    Nat → List (List Nat) → List ((Nat × Nat) × Option Nat)
  | _, [] => []
  | q, c :: cs => ((fid, q), some (K.md5 c)) :: tasksOf fid K (q + 1) cs

lemma procParts_length (fid : Nat) :
    ∀ (cs : List (List Nat)) (q u : Nat), (procParts fid q u cs).length = cs.length := by
  intro cs
  induction cs with
  | nil => intro q u; rfl
  | cons c cs ih => intro q u; simp [procParts, ih]

lemma readyParts_length (fid : Nat) (K : Codec) :
    ∀ (cs : List (List Nat)) (q u : Nat),
      (readyParts fid K q u cs).length = cs.length := by
  intro cs
  induction cs with
  | nil => intro q u; rfl
  | cons c cs ih => intro q u; simp [readyParts, ih]

lemma procParts_pid_ge (fid : Nat) :
    ∀ (cs : List (List Nat)) (q u : Nat) (x : FilePartRec),
      x ∈ procParts fid q u cs → u ≤ x.part_id := by
  intro cs
  induction cs with
  | nil => intro q u x hx; cases hx
  | cons c cs ih =>
    intro q u x hx
    rcases List.mem_cons.mp hx with h | h
    · rw [h]
    · have := ih (q + 1) (u + 1) x h
      omega

lemma readyParts_pid_lt (fid : Nat) (K : Codec) :
    ∀ (cs : List (List Nat)) (q u : Nat) (x : FilePartRec),
      x ∈ readyParts fid K q u cs → x.part_id < u + cs.length := by
  intro cs
  induction cs with
  | nil => intro q u x hx; cases hx
  | cons c cs ih =>
    intro q u x hx
    rcases List.mem_cons.mp hx with h | h
    · rw [h]; simp
    · have := ih (q + 1) (u + 1) x h
      simp only [List.length_cons]
      omega

lemma readyParts_fid (fid : Nat) (K : Codec) :
    ∀ (cs : List (List Nat)) (q u : Nat) (x : FilePartRec),
      x ∈ readyParts fid K q u cs → x.file_id = fid := by
  intro cs
  induction cs with
  | nil => intro q u x hx; cases hx
  | cons c cs ih =>
    intro q u x hx
    rcases List.mem_cons.mp hx with h | h
    · rw [h]
    · exact ih (q + 1) (u + 1) x h

lemma readyParts_seq_ge (fid : Nat) (K : Codec) :
    ∀ (cs : List (List Nat)) (q u : Nat) (x : FilePartRec),
      x ∈ readyParts fid K q u cs → q ≤ x.sequence_number := by
  intro cs
  induction cs with
  | nil => intro q u x hx; cases hx
  | cons c cs ih =>
    intro q u x hx
    rcases List.mem_cons.mp hx with h | h
    · rw [h]
    · have := ih (q + 1) (u + 1) x h
      omega

lemma readyParts_sorted (fid : Nat) (K : Codec) :
    ∀ (cs : List (List Nat)) (q u : Nat),
      List.Pairwise (fun a b : FilePartRec =>
        a.sequence_number ≤ b.sequence_number) (readyParts fid K q u cs) := by
  intro cs
  induction cs with
  | nil => intro q u; exact List.Pairwise.nil
  | cons c cs ih =>
    intro q u
    refine List.Pairwise.cons ?_ (ih (q + 1) (u + 1))
    intro x hx
    have := readyParts_seq_ge fid K cs (q + 1) (u + 1) x hx
    show q ≤ x.sequence_number
    omega

lemma readyParts_append (fid : Nat) (K : Codec) :
    ∀ (xs ys : List (List Nat)) (q u : Nat),
      readyParts fid K q u (xs ++ ys)
        = readyParts fid K q u xs
          ++ readyParts fid K (q + xs.length) (u + xs.length) ys := by
  intro xs
  induction xs with
  | nil => intro ys q u; simp [readyParts]
  | cons x xs ih =>
    intro ys q u
    simp only [List.cons_append, readyParts, List.length_cons, List.append_eq]
    rw [ih ys (q + 1) (u + 1)]
    have h1 : q + 1 + xs.length = q + (xs.length + 1) := by omega
    have h2 : u + 1 + xs.length = u + (xs.length + 1) := by omega
    rw [h1, h2]

lemma readyParts_take (fid : Nat) (K : Codec) :
    ∀ (cs : List (List Nat)) (k q u : Nat),
      (readyParts fid K q u cs).take k = readyParts fid K q u (cs.take k) := by
  intro cs
  induction cs with
  | nil => intro k q u; simp [readyParts]
  | cons c cs ih =>
    intro k q u
    cases k with
    | zero => rfl
    | succ k => simp only [readyParts, List.take_succ_cons, ih]

lemma readyParts_drop (fid : Nat) (K : Codec) :
    ∀ (cs : List (List Nat)) (k q u : Nat),
      (readyParts fid K q u cs).drop k
        = readyParts fid K (q + k) (u + k) (cs.drop k) := by
  intro cs
  induction cs with
  | nil => intro k q u; simp [readyParts]
  | cons c cs ih =>
    intro k q u
    cases k with
    | zero => simp [readyParts]
    | succ k =>
      simp only [readyParts, List.drop_succ_cons]
      rw [ih k (q + 1) (u + 1)]
      have h1 : q + 1 + k = q + (k + 1) := by omega
      have h2 : u + 1 + k = u + (k + 1) := by omega
      rw [h1, h2]

lemma storeChunks_append (K : Codec) (fid : Nat) :
    ∀ (xs ys : List (List Nat)) (q : Nat) (d : Nat × Nat → Option (List Nat)),
      storeChunks K fid q (xs ++ ys) d
        = storeChunks K fid (q + xs.length) ys (storeChunks K fid q xs d) := by
  intro xs
  induction xs with
  | nil => intro ys q d; simp [storeChunks]
  | cons x xs ih =>
    intro ys q d
    simp only [List.cons_append, storeChunks, List.length_cons, List.append_eq]
    rw [ih ys (q + 1)]
    have h1 : q + 1 + xs.length = q + (xs.length + 1) := by omega
    rw [h1]

/-- Dict insertion with a fresh key appends. -/
lemma insertPart_fresh (p : FilePartRec) (l : List FilePartRec)
    (h : ∀ x ∈ l, x.part_id ≠ p.part_id) : insertPart p l = l ++ [p] := by
  unfold insertPart
  rw [if_neg]
  simp only [List.any_eq_true, beq_iff_eq]
  push_neg
  exact h

/-- The read phase of a put iteration, characterised by the chunking of the
remaining source (for fresh part ids): it reads the first `k` chunks,
registers one `processing` Part per chunk, reports `file_end` iff the source
ran out before `k` chunks. -/
lemma readBatch_spec (C : Config) (fid : Nat) (hc : 0 < C.chunk) :
    ∀ (k q : Nat) (rem : List Nat) (s : Sys),
      (∀ x ∈ s.parts, x.part_id < s.nextPartId) →
      readBatch C fid k q rem s
        = (batchOf q s.nextPartId ((chunksOf C.chunk rem).take k),
           q + ((chunksOf C.chunk rem).take k).length,
           rem.drop (((chunksOf C.chunk rem).take k).length * C.chunk),
           decide ((chunksOf C.chunk rem).length < k),
           { s with
               parts := s.parts ++
                 procParts fid q s.nextPartId ((chunksOf C.chunk rem).take k),
               nextPartId := s.nextPartId
                 + ((chunksOf C.chunk rem).take k).length }) := by
  intro k
  induction k with
  | zero =>
    intro q rem s hB
    simp [readBatch, batchOf, procParts]
  | succ k ih =>
    intro q rem s hB
    by_cases hrem : rem = []
    · subst hrem
      rw [chunksOf_nil]
      simp [readBatch, List.isEmpty_iff, batchOf, procParts]
    · have hcs := chunksOf_cons C.chunk rem hc hrem
      have hne : ¬((rem.take C.chunk).isEmpty = true) := by
        simp only [List.isEmpty_iff]
        intro hx
        rcases List.take_eq_nil_iff.mp hx with h1 | h1
        · omega
        · exact hrem h1
      simp only [readBatch, if_neg hne]
      have hB1 : ∀ x ∈ { s with
          parts := insertPart
            ⟨s.nextPartId, fid, q, none, .processing⟩ s.parts,
          nextPartId := s.nextPartId + 1 }.parts,
          x.part_id < ({ s with
            parts := insertPart
              ⟨s.nextPartId, fid, q, none, .processing⟩ s.parts,
            nextPartId := s.nextPartId + 1 } : Sys).nextPartId := by
        simp only
        rw [insertPart_fresh _ _ (fun x hx => by
          show x.part_id ≠ s.nextPartId
          have := hB x hx
          omega)]
        intro x hx
        rcases List.mem_append.mp hx with h1 | h1
        · have := hB x h1; omega
        · rcases List.mem_singleton.mp h1 with rfl
          simp
      rw [ih (q + 1) (rem.drop C.chunk) _ hB1]
      rw [insertPart_fresh _ _ (fun x hx => by
        show x.part_id ≠ s.nextPartId
        have := hB x hx
        omega)]
      rw [hcs]
      simp only [List.take_succ_cons, List.length_cons, batchOf, procParts]
      refine congrArg₂ Prod.mk rfl (congrArg₂ Prod.mk ?_ (congrArg₂ Prod.mk ?_
        (congrArg₂ Prod.mk ?_ ?_)))
      · omega
      · rw [List.drop_drop]
        congr 1
        ring
      · rw [decide_eq_decide]
        omega
      · refine Sys.extEq _ _ rfl rfl ?_ rfl rfl rfl ?_ rfl
        · simp only
          rw [List.append_assoc]
          rfl
        · simp only
          omega

/-- The store dispatch on a batch of chunks: artifacts written in sequence
positions, results in submission order. -/
lemma storeBatch_spec (K : Codec) (fid : Nat) :
    ∀ (cs : List (List Nat)) (q u : Nat) (d : Nat × Nat → Option (List Nat)),
      storeBatch K fid (batchOf q u cs) d
        = (resultsOf K u cs, storeChunks K fid q cs d) := by
  intro cs
  induction cs with
  | nil => intro q u d; rfl
  | cons c cs ih =>
    intro q u d
    simp only [batchOf, storeBatch, compress_and_store_part, resultsOf,
      storeChunks]
    rw [ih (q + 1) (u + 1)]

lemma procParts_map_ge (fid : Nat) (f : FilePartRec → FilePartRec) :
    ∀ (cs : List (List Nat)) (q u v : Nat), v < u →
      (procParts fid q u cs).map (fun x =>
        if x.part_id == v then f x else x) = procParts fid q u cs := by
  intro cs
  induction cs with
  | nil => intro q u v hv; rfl
  | cons c cs ih =>
    intro q u v hv
    simp only [procParts, List.map_cons]
    rw [if_neg (by simp only [beq_iff_eq]; omega), ih (q + 1) (u + 1) v (by omega)]

/-- Applying a batch's results to the registry turns exactly its fresh
`processing` Parts `ready` with their digests, leaving older parts alone. -/
lemma applyResults_spec (K : Codec) (fid : Nat) :
    ∀ (cs : List (List Nat)) (q u : Nat) (ps : List FilePartRec),
      (∀ x ∈ ps, x.part_id < u) →
      applyResults (resultsOf K u cs) (ps ++ procParts fid q u cs)
        = ps ++ readyParts fid K q u cs := by
  intro cs
  induction cs with
  | nil => intro q u ps hB; rfl
  | cons c cs ih =>
    intro q u ps hB
    simp only [resultsOf, procParts, readyParts, applyResults]
    rw [List.map_append]
    have hps : ps.map (fun x => if x.part_id == u then
        { x with md5_hash := some (K.md5 c), status := Status.ready }
        else x) = ps := by
      have : ∀ x ∈ ps, (fun x => if x.part_id == u then
          { x with md5_hash := some (K.md5 c), status := Status.ready }
          else x) x = id x := by
        intro x hx
        have := hB x hx
        simp only [id]
        rw [if_neg (by simp only [beq_iff_eq]; omega)]
      rw [List.map_congr_left this, List.map_id]
    rw [hps]
    simp only [List.map_cons]
    rw [if_pos (by simp)]
    rw [procParts_map_ge fid _ cs (q + 1) (u + 1) u (by omega)]
    have hcons : ps ++ (⟨u, fid, q, some (K.md5 c), Status.ready⟩ : FilePartRec)
          :: procParts fid (q + 1) (u + 1) cs
        = (ps ++ [⟨u, fid, q, some (K.md5 c), Status.ready⟩])
          ++ procParts fid (q + 1) (u + 1) cs := by
      rw [List.append_assoc]
      rfl
    rw [hcons, ih (q + 1) (u + 1) _ (by
      intro x hx
      rcases List.mem_append.mp hx with h1 | h1
      · have := hB x h1; omega
      · rcases List.mem_singleton.mp h1 with rfl
        simp)]
    rw [List.append_assoc]
    rfl

lemma batchOf_length :
    ∀ (cs : List (List Nat)) (q u : Nat), (batchOf q u cs).length = cs.length := by
  intro cs
  induction cs with
  | nil => intro q u; rfl
  | cons c cs ih => intro q u; simp [batchOf, ih]

/-- The put loop, on a clean state with enough fuel, admission always
succeeding (`pool * chunk ≤ ceiling`, counter at zero and released after
every batch): it stores the compressed chunks of the remaining source at the
successive sequence positions, registers all Parts `ready` with their
digests, and finalises the File at the total chunk count. -/
lemma putLoop_ok (C : Config) (K : Codec) (fid : Nat)
    (hc : 0 < C.chunk) (hp : 0 < C.pool)
    (hm : (C.pool * C.chunk : Int) ≤ C.maxMem) :
    ∀ (fuel : Nat) (rem : List Nat) (q : Nat) (ws : List Nat) (s : Sys),
      rem.length + 2 ≤ fuel → s.current = 0 →
      (∀ x ∈ s.parts, x.part_id < s.nextPartId) →
      putLoop C K fid fuel ws q rem s
        = some (putFinal fid (q + (chunksOf C.chunk rem).length)
            { s with
                parts := s.parts ++ readyParts fid K q s.nextPartId
                  (chunksOf C.chunk rem),
                disk := storeChunks K fid q (chunksOf C.chunk rem) s.disk,
                nextPartId := s.nextPartId + (chunksOf C.chunk rem).length,
                current := 0 }) := by
  intro fuel
  induction fuel with
  | zero => intro rem q ws s hfuel hcur hB; omega
  | succ fuel ih =>
    intro rem q ws s hfuel hcur hB
    have hbkle : ((chunksOf C.chunk rem).take C.pool).length ≤ C.pool := by
      rw [List.length_take]
      omega
    have hneed : (((chunksOf C.chunk rem).take C.pool).length * C.chunk
        : Nat) ≤ C.pool * C.chunk := Nat.mul_le_mul_right _ hbkle
    have hneedI : ((((chunksOf C.chunk rem).take C.pool).length * C.chunk
        : Nat) : Int) ≤ C.maxMem := by
      refine le_trans ?_ hm
      exact_mod_cast hneed
    simp only [putLoop]
    rw [readBatch_spec C fid hc C.pool q rem s hB]
    simp only
    rw [batchOf_length]
    have hcheck : check_and_update_memory_usage C
        (((chunksOf C.chunk rem).take C.pool).length * C.chunk)
        { s with
            parts := s.parts ++ procParts fid q s.nextPartId
              ((chunksOf C.chunk rem).take C.pool),
            nextPartId := s.nextPartId
              + ((chunksOf C.chunk rem).take C.pool).length }
        = (true, { s with
            parts := s.parts ++ procParts fid q s.nextPartId
              ((chunksOf C.chunk rem).take C.pool),
            nextPartId := s.nextPartId
              + ((chunksOf C.chunk rem).take C.pool).length,
            current := s.current
              + ↑(((chunksOf C.chunk rem).take C.pool).length * C.chunk) }) := by
      unfold check_and_update_memory_usage
      rw [if_neg]
      simp only [not_lt]
      rw [hcur]
      simpa using hneedI
    rw [hcheck]
    simp only
    rw [storeBatch_spec K fid]
    simp only
    rw [applyResults_spec K fid _ q s.nextPartId s.parts hB]
    by_cases hnp : (chunksOf C.chunk rem).length < C.pool
    · -- file end in this iteration
      rw [if_pos (by simpa using hnp)]
      have htake : (chunksOf C.chunk rem).take C.pool = chunksOf C.chunk rem :=
        List.take_of_length_le (by omega)
      refine congrArg some ?_
      rw [htake]
      refine congrArg (putFinal fid (q + (chunksOf C.chunk rem).length)) ?_
      refine Sys.extEq _ _ ?_ rfl rfl rfl rfl rfl rfl rfl
      simp only [reduce_memory_usage]
      rw [hcur]
      simp
    · -- full batch stored, loop again on the rest
      rw [if_neg (by simpa using hnp)]
      have hbkp : ((chunksOf C.chunk rem).take C.pool).length = C.pool := by
        rw [List.length_take]
        omega
      have hremne : rem ≠ [] := by
        intro hx
        rw [hx, chunksOf_nil] at hnp
        simp at hnp
        omega
      have hpc : 0 < C.pool * C.chunk := Nat.mul_pos hp hc
      have hrestlen : (rem.drop (((chunksOf C.chunk rem).take C.pool).length
          * C.chunk)).length + 2 ≤ fuel := by
        rw [List.length_drop, hbkp]
        have h1 : 0 < rem.length := List.length_pos.mpr hremne
        omega
      have hcur3 : (reduce_memory_usage
          (((chunksOf C.chunk rem).take C.pool).length * C.chunk)
          { s with
              parts := s.parts ++ readyParts fid K q s.nextPartId
                ((chunksOf C.chunk rem).take C.pool),
              nextPartId := s.nextPartId
                + ((chunksOf C.chunk rem).take C.pool).length,
              disk := storeChunks K fid q
                ((chunksOf C.chunk rem).take C.pool) s.disk,
              current := s.current
                + ↑(((chunksOf C.chunk rem).take C.pool).length * C.chunk) }
          : Sys).current = 0 := by
      -- placeholder, adjusted below
        simp only [reduce_memory_usage]
        rw [hcur]
        simp
      rw [ih _ _ ws _ hrestlen hcur3 ?hB3]
      case hB3 =>
        simp only [reduce_memory_usage]
        intro x hx
        rcases List.mem_append.mp hx with h1 | h1
        · have := hB x h1
          omega
        · have := readyParts_pid_lt fid K _ q s.nextPartId x h1
          omega
      refine congrArg some ?_
      have hdropchunks : chunksOf C.chunk
          (rem.drop (((chunksOf C.chunk rem).take C.pool).length * C.chunk))
          = (chunksOf C.chunk rem).drop C.pool := by
        rw [hbkp]
        exact chunksOf_drop C.chunk hc C.pool rem
      rw [hdropchunks]
      have hlendrop : ((chunksOf C.chunk rem).drop C.pool).length
          = (chunksOf C.chunk rem).length - C.pool := by
        rw [List.length_drop]
      have hseq : q + ((chunksOf C.chunk rem).take C.pool).length
          + ((chunksOf C.chunk rem).drop C.pool).length
          = q + (chunksOf C.chunk rem).length := by
        rw [hbkp, hlendrop]
        omega
      rw [hseq]
      refine congrArg (putFinal fid (q + (chunksOf C.chunk rem).length)) ?_
      refine Sys.extEq _ _ rfl rfl ?_ ?_ rfl rfl ?_ rfl
      · -- parts
        simp only [reduce_memory_usage]
        rw [List.append_assoc]
        refine congrArg (fun l => s.parts ++ l) ?_
        have := readyParts_append fid K ((chunksOf C.chunk rem).take C.pool)
          ((chunksOf C.chunk rem).drop C.pool) q s.nextPartId
        rw [List.take_append_drop] at this
        rw [this, hbkp]
      · -- disk
        simp only [reduce_memory_usage]
        have := storeChunks_append K fid ((chunksOf C.chunk rem).take C.pool)
          ((chunksOf C.chunk rem).drop C.pool) q s.disk
        rw [List.take_append_drop] at this
        rw [this, hbkp]
      · -- nextPartId
        simp only [reduce_memory_usage]
        rw [hbkp, hlendrop]
        omega

/-- The retrieval admission sweep over the ready Parts of chunk list `cs`,
when the ceiling covers a full batch (`j` chunks already admitted in this
batch, `j + |cs| ≤ pool`): every admission succeeds, no waits are consumed,
the tasks carry the artifact paths and recorded digests in order. -/
lemma admitBatch_ready (C : Config) (K : Codec) (fidN : Nat)
    (hm : (C.pool * C.chunk : Int) ≤ C.maxMem) :
    ∀ (cs : List (List Nat)) (q u j : Nat) (ws : List Nat) (s : Sys),
      s.current = (j : Int) * C.chunk → j + cs.length ≤ C.pool →
      admitBatch C (fidN : Int) (readyParts fidN K q u cs) ws s
        = some (cs.length * C.chunk, tasksOf fidN K q cs, ws,
            { s with current := s.current + ((cs.length * C.chunk : Nat) : Int) }) := by
  intro cs
  induction cs with
  | nil =>
    intro q u j ws s hcur hle
    simp only [readyParts, admitBatch, tasksOf]
    refine congrArg some ?_
    refine congrArg₂ Prod.mk (by simp) (congrArg₂ Prod.mk rfl
      (congrArg₂ Prod.mk rfl ?_))
    refine Sys.extEq _ _ ?_ rfl rfl rfl rfl rfl rfl rfl
    simp
  | cons c cs ihc =>
    intro q u j ws s hcur hle
    simp only [readyParts, admitBatch]
    have hok : ¬ (s.current + (C.chunk : Int) > C.maxMem) := by
      simp only [not_lt]
      rw [hcur]
      have h2 : (j : Int) * C.chunk + C.chunk
          = ((j + 1 : Nat) : Int) * C.chunk := by
        push_cast
        ring
      rw [h2]
      refine le_trans ?_ hm
      have h3 : ((j + 1 : Nat) : Int) ≤ (C.pool : Int) := by
        exact_mod_cast (show j + 1 ≤ C.pool by
          simp only [List.length_cons] at hle
          omega)
      have h4 : (0 : Int) ≤ (C.chunk : Int) := by positivity
      exact mul_le_mul_of_nonneg_right h3 h4
    have hcheck : check_and_update_memory_usage C C.chunk s
        = (true, { s with current := s.current + (C.chunk : Int) }) := by
      unfold check_and_update_memory_usage
      rw [if_neg hok]
    rw [hcheck]
    simp only
    rw [ihc (q + 1) (u + 1) (j + 1) ws _ (by
        show s.current + (C.chunk : Int) = ((j + 1 : Nat) : Int) * C.chunk
        rw [hcur]
        push_cast
        ring)
      (by simp only [List.length_cons] at hle; omega)]
    simp only
    refine congrArg some ?_
    rw [Int.toNat_natCast]
    refine congrArg₂ Prod.mk (by simp only [List.length_cons]; ring)
      (congrArg₂ Prod.mk ?_ (congrArg₂ Prod.mk rfl ?_))
    · simp only [tasksOf]
    · refine Sys.extEq _ _ ?_ rfl rfl rfl rfl rfl rfl rfl
      simp only [List.length_cons]
      push_cast
      ring

/-- Verification of the stored tasks: every artifact present with the right
compressed content and recorded digest decompresses and verifies. -/
lemma runTasks_ready (K : Codec) (fidN : Nat)
    (hK : ∀ x, K.decomp (K.compress x) = some x) :
    ∀ (cs : List (List Nat)) (q : Nat) (d : Nat × Nat → Option (List Nat)),
      (∀ i, i < cs.length → d (fidN, q + i) = some (K.compress (cs.getD i []))) →
      runTasks K d (tasksOf fidN K q cs)
        = cs.map (fun c => ((some c : Option (List Nat)),
            (none : Option PartErr))) := by
  intro cs
  induction cs with
  | nil => intro q d hd; rfl
  | cons c cs ihc =>
    intro q d hd
    simp only [tasksOf, runTasks, List.map_cons]
    have hhead : decompress_and_verify_part K d (fidN, q) (some (K.md5 c))
        = (some c, none) := by
      have h0 := hd 0 (by simp)
      rw [Nat.add_zero, List.getD_cons_zero] at h0
      simp [decompress_and_verify_part, h0, hK c]
    rw [hhead]
    have htail := ihc (q + 1) d (by
      intro i hi
      have hx := hd (i + 1) (by simpa using Nat.succ_lt_succ hi)
      rw [List.getD_cons_succ] at hx
      rw [show q + 1 + i = q + (i + 1) from by omega]
      exact hx)
    simp only [runTasks] at htail
    rw [htail]

lemma updRet_updRet (f : String → Option (List Nat)) (k : String)
    (v v' : Option (List Nat)) :
    updRet (updRet f k v) k v' = updRet f k v' := by
  funext q
  unfold updRet
  by_cases hq : q = k <;> simp [hq]

/-- The result loop on an all-verified batch appends the decompressed chunks
to the destination, in order, and continues. -/
lemma writeResults_ok (name : String) :
    ∀ (cs : List (List Nat)) (s : Sys) (w : List Nat),
      s.retrieved name = some w →
      writeResults name (cs.map (fun c => ((some c : Option (List Nat)),
          (none : Option PartErr)))) s
        = (true, { s with
            retrieved := updRet s.retrieved name (some (w ++ cs.flatten)) }) := by
  intro cs
  induction cs with
  | nil =>
    intro s w hw
    simp only [List.map_nil, writeResults, List.flatten_nil, List.append_nil]
    refine congrArg (Prod.mk true) ?_
    refine Sys.extEq _ _ rfl rfl rfl rfl ?_ rfl rfl rfl
    funext qn
    show s.retrieved qn = if qn = name then some w else s.retrieved qn
    by_cases hq : qn = name
    · rw [if_pos hq, hq, hw]
    · rw [if_neg hq]
  | cons c cs ihc =>
    intro s w hw
    simp only [List.map_cons, writeResults, hw, Option.getD_some]
    rw [ihc _ (w ++ c) (by simp [updRet])]
    refine congrArg (Prod.mk true) ?_
    refine Sys.extEq _ _ rfl rfl rfl rfl ?_ rfl rfl rfl
    simp only
    rw [updRet_updRet, List.flatten_cons, List.append_assoc]

lemma getD_take :
    ∀ (l : List (List Nat)) (k i : Nat), i < k →
      (l.take k).getD i [] = l.getD i [] := by
  intro l
  induction l with
  | nil => intro k i hi; simp
  | cons x xs ih =>
    intro k i hi
    cases k with
    | zero => omega
    | succ k =>
      cases i with
      | zero => simp
      | succ i =>
        simp only [List.take_succ_cons, List.getD_cons_succ]
        exact ih k i (by omega)

lemma getD_drop :
    ∀ (l : List (List Nat)) (k i : Nat),
      (l.drop k).getD i [] = l.getD (k + i) [] := by
  intro l
  induction l with
  | nil => intro k i; simp
  | cons x xs ih =>
    intro k i
    cases k with
    | zero => simp
    | succ k =>
      simp only [List.drop_succ_cons]
      rw [ih k i]
      rw [show k + 1 + i = (k + i) + 1 from by omega]
      simp

/-- The retrieval batch loop over the ready Parts of chunk list `cs`, with
all artifacts intact: every batch is admitted, verified and appended in
order; the loop ends with the destination holding the previously written
prefix followed by all of `cs`, reporting success. -/
lemma getLoop_ok (C : Config) (K : Codec) (name : String) (fidN : Nat)
    (hp : 0 < C.pool) (hm : (C.pool * C.chunk : Int) ≤ C.maxMem)
    (hK : ∀ x, K.decomp (K.compress x) = some x) :
    ∀ (fuel : Nat) (cs : List (List Nat)) (q u : Nat) (ws : List Nat)
      (s : Sys) (w : List Nat),
      cs.length + 1 ≤ fuel → s.current = 0 → s.retrieved name = some w →
      (∀ i, i < cs.length →
        s.disk (fidN, q + i) = some (K.compress (cs.getD i []))) →
      getLoop C K name (fidN : Int) fuel ws (readyParts fidN K q u cs) s
        = some { s with
            retrieved := updRet s.retrieved name (some (w ++ cs.flatten)),
            out := .retrievedOk name :: s.out } := by
  intro fuel
  induction fuel with
  | zero => intro cs q u ws s w hfuel hcur hw hd; omega
  | succ fuel ih =>
    intro cs q u ws s w hfuel hcur hw hd
    cases cs with
    | nil =>
      simp only [readyParts, getLoop]
      refine congrArg some ?_
      refine Sys.extEq _ _ rfl rfl rfl rfl ?_ rfl rfl rfl
      funext qn
      show s.retrieved qn
        = if qn = name then some (w ++ ([] : List (List Nat)).flatten)
          else s.retrieved qn
      by_cases hq : qn = name
      · rw [if_pos hq, hq, hw]
        simp
      · rw [if_neg hq]
    | cons c cs' =>
      have hne : readyParts fidN K q u (c :: cs')
          = ⟨u, fidN, q, some (K.md5 c), .ready⟩
            :: readyParts fidN K (q + 1) (u + 1) cs' := rfl
      simp only [getLoop, hne]
      rw [← hne, readyParts_take, readyParts_drop]
      have hlen : 0 + ((c :: cs').take C.pool).length ≤ C.pool := by
        rw [List.length_take]
        omega
      rw [admitBatch_ready C K fidN hm ((c :: cs').take C.pool) q u 0 ws s
        (by rw [hcur]; simp) hlen]
      simp only
      have hdisk1 : ∀ i, i < ((c :: cs').take C.pool).length →
          s.disk (fidN, q + i)
            = some (K.compress (((c :: cs').take C.pool).getD i [])) := by
        intro i hi
        rw [getD_take _ _ _ (by
          rw [List.length_take] at hi
          omega)]
        refine hd i ?_
        rw [List.length_take] at hi
        omega
      rw [runTasks_ready K fidN hK ((c :: cs').take C.pool) q _ hdisk1]
      rw [writeResults_ok name ((c :: cs').take C.pool) _ w (by
        show s.retrieved name = some w
        exact hw)]
      simp only
      rw [ih ((c :: cs').drop C.pool) (q + C.pool) (u + C.pool) ws _
        (w ++ ((c :: cs').take C.pool).flatten)
        (by
          rw [List.length_drop]
          simp only [List.length_cons] at hfuel ⊢
          omega)
        (by
          show (max 0 (s.current
            + ↑(((c :: cs').take C.pool).length * C.chunk)
            - ↑(((c :: cs').take C.pool).length * C.chunk)) : Int) = 0
          rw [hcur]
          simp)
        (by
          show updRet s.retrieved name
            (some (w ++ ((c :: cs').take C.pool).flatten)) name
            = some (w ++ ((c :: cs').take C.pool).flatten)
          simp [updRet])
        (by
          intro i hi
          show s.disk (fidN, q + C.pool + i)
            = some (K.compress (((c :: cs').drop C.pool).getD i []))
          rw [getD_drop]
          rw [show q + C.pool + i = q + (C.pool + i) from by omega]
          refine hd (C.pool + i) ?_
          rw [List.length_drop] at hi
          omega)]
      refine congrArg some ?_
      refine Sys.extEq _ _ ?_ rfl rfl rfl ?_ rfl rfl rfl
      · show (max 0 (s.current
          + ↑(((c :: cs').take C.pool).length * C.chunk)
          - ↑(((c :: cs').take C.pool).length * C.chunk)) : Int) = s.current
        rw [hcur]
        simp
      · show updRet (updRet s.retrieved name
            (some (w ++ ((c :: cs').take C.pool).flatten))) name
            (some (w ++ ((c :: cs').take C.pool).flatten
              ++ ((c :: cs').drop C.pool).flatten))
          = updRet s.retrieved name (some (w ++ ((c :: cs').flatten)))
        rw [updRet_updRet]
        have hfl : ((c :: cs').take C.pool).flatten
            ++ ((c :: cs').drop C.pool).flatten = (c :: cs').flatten := by
          rw [← List.flatten_append, List.take_append_drop]
        rw [List.append_assoc, hfl]

lemma storeChunks_frame (K : Codec) (fidN : Nat) :
    ∀ (cs : List (List Nat)) (q : Nat) (d : Nat × Nat → Option (List Nat))
      (j : Nat), j < q → storeChunks K fidN q cs d (fidN, j) = d (fidN, j) := by
  intro cs
  induction cs with
  | nil => intro q d j hj; rfl
  | cons c cs ih =>
    intro q d j hj
    simp only [storeChunks]
    rw [ih (q + 1) _ j (by omega)]
    unfold updDisk
    rw [if_neg (by
      intro hx
      injection hx with h1 h2
      omega)]

/-- Lookup in the stored-artifact map: position `q + i` holds the compressed
`i`-th chunk. -/
lemma storeChunks_at (K : Codec) (fidN : Nat) :
    ∀ (cs : List (List Nat)) (q : Nat) (d : Nat × Nat → Option (List Nat))
      (i : Nat), i < cs.length →
      storeChunks K fidN q cs d (fidN, q + i)
        = some (K.compress (cs.getD i [])) := by
  intro cs
  induction cs with
  | nil => intro q d i hi; simp at hi
  | cons c cs ih =>
    intro q d i hi
    cases i with
    | zero =>
      simp only [storeChunks, Nat.add_zero, List.getD_cons_zero]
      rw [storeChunks_frame K fidN cs (q + 1) _ q (by omega)]
      unfold updDisk
      rw [if_pos rfl]
    | succ i =>
      simp only [storeChunks, List.getD_cons_succ]
      rw [show q + (i + 1) = (q + 1) + i from by omega]
      exact ih (q + 1) _ i (by simpa using Nat.lt_of_succ_lt_succ hi)

/-- The state `put` of `B` (as "p", from a fresh system) produces under an
always-admitting configuration. -/
def putOutcome (C : Config) (K : Codec) (B : List Nat) : Sys :=
  putFinal 0 (0 + (chunksOf C.chunk B).length)
    { current := 0,
      files := [⟨0, "p", 0, .processing⟩],
      parts := [] ++ readyParts 0 K 0 0 (chunksOf C.chunk B),
      disk := storeChunks K 0 0 (chunksOf C.chunk B) (fun _ => none),
      retrieved := fun _ => none,
      nextFileId := 1,
      nextPartId := 0 + (chunksOf C.chunk B).length,
      out := [] }

/-- C4: the round trip.  For any byte sequence `B` (so in particular for
lengths `0`, `1`, `chunk-1`, `chunk`, `chunk+1` and multiples of `chunk`),
with a positive chunk size and pool and a memory ceiling admitting one full
batch, and a codec satisfying zlib's round-trip contract: `put` of `B`
followed by `get` of the assigned file id writes exactly `B` to the
retrieval destination. -/
theorem C4_round_trip (C : Config) (K : Codec) (B : List Nat)
    (hc : 0 < C.chunk) (hp : 0 < C.pool)
    (hm : (C.pool * C.chunk : Int) ≤ C.maxMem)
    (hK : ∀ x, K.decomp (K.compress x) = some x) :
    ∃ t v, handle_put C K [] "p" (fun _ => some B) initSys = some t ∧
      handle_get C K [] 0 t = some v ∧ v.retrieved "p" = some B := by
  have hputeq : handle_put C K [] "p" (fun _ => some B) initSys
      = some (putOutcome C K B) := by
    have h0 : handle_put C K [] "p" (fun _ => some B) initSys
        = putLoop C K 0 (B.length + 2) [] 0 B
            { current := 0, files := [⟨0, "p", 0, .processing⟩], parts := [],
              disk := fun _ => none, retrieved := fun _ => none,
              nextFileId := 1, nextPartId := 0, out := [] } := rfl
    rw [h0, putLoop_ok C K 0 hc hp hm (B.length + 2) B 0 [] _ le_rfl rfl
      (by intro x hx; exact absurd hx (List.not_mem_nil x))]
    rfl
  have hfind : findFile (putOutcome C K B) 0
      = some ⟨0, "p", 0 + (chunksOf C.chunk B).length + 1, Status.ready⟩ :=
    rfl
  have hparts : (putOutcome C K B).parts
      = readyParts 0 K 0 0 (chunksOf C.chunk B) := rfl
  have hfilter : (readyParts 0 K 0 0 (chunksOf C.chunk B)).filter
      (fun p => (p.file_id : Int) == (0 : Int))
      = readyParts 0 K 0 0 (chunksOf C.chunk B) := by
    refine List.filter_eq_self.mpr ?_
    intro x hx
    have hfid := readyParts_fid 0 K (chunksOf C.chunk B) 0 0 x hx
    simp [hfid]
  have hsort : sortParts (readyParts 0 K 0 0 (chunksOf C.chunk B))
      = readyParts 0 K 0 0 (chunksOf C.chunk B) := by
    unfold sortParts
    exact List.Sorted.insertionSort_eq
      (readyParts_sorted 0 K (chunksOf C.chunk B) 0 0)
  have hget : handle_get C K [] 0 (putOutcome C K B)
      = some { putOutcome C K B with
          retrieved := updRet
            (updRet (putOutcome C K B).retrieved "p" (some []))
            "p" (some ([] ++ (chunksOf C.chunk B).flatten)),
          out := .retrievedOk "p" :: (putOutcome C K B).out } := by
    simp only [handle_get, hfind]
    rw [if_neg (fun hx => hx rfl)]
    rw [hparts, hfilter, hsort, readyParts_length]
    rw [if_neg (by omega : ¬ C.pool = 0)]
    exact getLoop_ok C K "p" 0 hp hm hK
      ((chunksOf C.chunk B).length + 1) (chunksOf C.chunk B) 0 0 [] _ []
      le_rfl rfl rfl
      (fun i hi => storeChunks_at K 0 (chunksOf C.chunk B) 0 (fun _ => none) i hi)
  refine ⟨putOutcome C K B, _, hputeq, hget, ?_⟩
  show updRet (updRet (putOutcome C K B).retrieved "p" (some []))
      "p" (some ([] ++ (chunksOf C.chunk B).flatten)) "p" = some B
  simp only [updRet]
  rw [if_pos trivial, List.nil_append, flatten_chunksOf C.chunk hc B]

/-- Witness for C4: the spec's own scenario, a 10-byte source with
`chunk_size = 4` (pool 2, ceiling 100, identity codec). -/
theorem C4_round_trip_witness :
    ∃ t v, handle_put ⟨4, 2, 100⟩ idCodec [] "p"
        (fun _ => some [1, 2, 3, 4, 5, 6, 7, 8, 9, 10]) initSys = some t ∧
      handle_get ⟨4, 2, 100⟩ idCodec [] 0 t = some v ∧
      v.retrieved "p" = some [1, 2, 3, 4, 5, 6, 7, 8, 9, 10] :=
  C4_round_trip ⟨4, 2, 100⟩ idCodec [1, 2, 3, 4, 5, 6, 7, 8, 9, 10]
    (by decide) (by decide) (by decide) (fun x => rfl)
